import Mathlib

/-!
Verification development for the ZipToRepo deployer.

JavaScript strings are modelled as `List Char` (`Str`); byte arrays as
`List Nat` (`Bytes`).  The definitions below are shallow embeddings of the
functions in `src/lib/github.ts` and `src/lib/firebase.ts`: `analyzeZip`
(archive ingestion, common-root detection, junk filtering, project
classification, warning generation), `fixAbsolutePaths`, the file
preparation / patch overlay step of `deployZipToGitHub`, and the two
deployment orchestrators with their event streams, modelled against an
oracle describing the HTTP responses.
-/

abbrev Str := List Char

abbrev Bytes := List Nat

/-- JavaScript `a <= b` string comparison: lexicographic by code unit.
Mirrors the comparator used by `Array.prototype.sort()` on strings. -/
def jsLe : Str → Str → Bool
  | [], _ => true
  | _ :: _, [] => false
  | x :: xs, y :: ys =>
    if x < y then true
    else if y < x then false
    else jsLe xs ys

/-- The comparison as a relation, for use with `List.insertionSort`. -/
def jsLeR (a b : Str) : Prop := jsLe a b = true

instance : DecidableRel jsLeR := fun a b =>
  (inferInstance : Decidable (jsLe a b = true))

theorem jsLe_refl (a : Str) : jsLe a a = true := by
  induction a with
  | nil => rfl
  | cons x xs ih => simp [jsLe, ih]

theorem jsLe_trans : ∀ a b c : Str, jsLe a b = true → jsLe b c = true →
    jsLe a c = true := by
  intro a
  induction a with
  | nil => intro b c _ _; rfl
  | cons x xs ih =>
    intro b c hab hbc
    match b, c with
    | [], _ => simp [jsLe] at hab
    | _ :: _, [] => simp [jsLe] at hbc
    | y :: ys, z :: zs =>
      simp only [jsLe] at hab hbc ⊢
      split at hab
      · rename_i hxy
        split at hbc
        · rename_i hyz
          simp [lt_trans hxy hyz]
        · split at hbc
          · exact absurd hbc (by simp)
          · rename_i h1 h2
            have hyz : y = z := le_antisymm (not_lt.mp h2) (not_lt.mp h1)
            simp [hyz ▸ hxy]
      · split at hab
        · exact absurd hab (by simp)
        · rename_i h1 h2
          have hxy : x = y := le_antisymm (not_lt.mp h2) (not_lt.mp h1)
          subst hxy
          split at hbc
          · rename_i hyz
            simp [hyz]
          · split at hbc
            · exact absurd hbc (by simp)
            · rename_i h3 h4
              have hyz : x = z := le_antisymm (not_lt.mp h4) (not_lt.mp h3)
              subst hyz
              simp only [lt_irrefl, if_false]
              exact ih ys zs hab hbc

theorem jsLe_total : ∀ a b : Str, jsLe a b = true ∨ jsLe b a = true := by
  intro a
  induction a with
  | nil => intro b; left; rfl
  | cons x xs ih =>
    intro b
    match b with
    | [] => right; rfl
    | y :: ys =>
      simp only [jsLe]
      rcases lt_trichotomy x y with h | h | h
      · left; simp [h]
      · subst h
        simp only [lt_irrefl, if_false]
        exact ih ys

      · right; simp [h]

instance : IsTotal Str jsLeR := ⟨fun a b => jsLe_total a b⟩

instance : IsTrans Str jsLeR := ⟨fun a b c => jsLe_trans a b c⟩

/-- JavaScript `hay.startsWith(needle)`. -/
def jsStartsWith (hay needle : Str) : Bool := needle.isPrefixOf hay

/-- JavaScript `hay.endsWith(needle)`. -/
def jsEndsWith (hay needle : Str) : Bool := needle.reverse.isPrefixOf hay.reverse

/-- JavaScript `hay.includes(needle)` (substring containment). -/
def jsIncludes (needle : Str) : Str → Bool
  | [] => needle.isPrefixOf []
  | c :: rest => needle.isPrefixOf (c :: rest) || jsIncludes needle rest

/-- JavaScript `list.includes(x)` on an array of strings. -/
def jsElem (x : Str) (l : List Str) : Bool := l.any (fun y => x == y)

theorem jsStartsWith_iff (hay needle : Str) :
    jsStartsWith hay needle = true ↔ needle <+: hay := by
  simp [jsStartsWith, List.isPrefixOf_iff_prefix]

theorem jsElem_iff (x : Str) (l : List Str) : jsElem x l = true ↔ x ∈ l := by
  simp [jsElem]

/-- Longest common character prefix of two strings: the model of the
`while (i < first.length && first.charAt(i) === last.charAt(i)) i++` loop
followed by `first.substring(0, i)` in `analyzeZip`. -/
def lcp : Str → Str → Str
  | x :: xs, y :: ys => if x = y then x :: lcp xs ys else []
  | _, _ => []

/-- Model of `prefix.substring(0, prefix.lastIndexOf("/") + 1)` guarded by
`lastIndexOf("/") !== -1`: the prefix of `s` up to and including the last
slash, or `none` when `s` has no slash. -/
def truncAtLastSlash : Str → Option Str
  | [] => none
  | c :: rest =>
    match truncAtLastSlash rest with
    | some tail => some (c :: tail)
    | none => if c = '/' then some [c] else none

/-- Common-root detection from `analyzeZip` (step 2): sort the raw entry
paths, take the longest common character prefix of the first and the last
sorted path, truncate it at the last slash, and accept the candidate only
when every path starts with it. -/
def commonRoot (paths : List Str) : Str :=
  match paths with
  | [] => []
  | _ :: _ =>
    let sorted := List.insertionSort jsLeR paths
    let first := sorted.headD []
    let lastPath := sorted.getLastD []
    let pre := lcp first lastPath
    match truncAtLastSlash pre with
    | none => []
    | some candidate =>
      if paths.all (fun p => jsStartsWith p candidate) then candidate else []

theorem lcp_prefix_left : ∀ a b : Str, lcp a b <+: a := by
  intro a
  induction a with
  | nil => intro b; cases b <;> simp [lcp]
  | cons x xs ih =>
    intro b
    cases b with
    | nil => simp [lcp]
    | cons y ys =>
      simp only [lcp]
      split
      · subst_vars
        exact (List.cons_prefix_cons).mpr ⟨rfl, ih ys⟩
      · simp

theorem prefix_lcp_of_prefix : ∀ u a b : Str, u <+: a → u <+: b →
    u <+: lcp a b := by
  intro u
  induction u with
  | nil => intro a b _ _; simp
  | cons c cs ih =>
    intro a b ha hb
    match a, b with
    | [], _ => exact absurd (List.eq_nil_of_prefix_nil ha) (by simp)
    | _ :: _, [] => exact absurd (List.eq_nil_of_prefix_nil hb) (by simp)
    | x :: xs, y :: ys =>
      obtain ⟨hcx, ha'⟩ := List.cons_prefix_cons.mp ha
      obtain ⟨hcy, hb'⟩ := List.cons_prefix_cons.mp hb
      subst hcx
      simp only [lcp, ← hcy, if_pos rfl]
      exact (List.cons_prefix_cons).mpr ⟨rfl, ih xs ys ha' hb'⟩

theorem lcp_between : ∀ a p b : Str, jsLe a p = true → jsLe p b = true →
    lcp a b <+: p := by
  intro a
  induction a with
  | nil => intro p b _ _; simp [lcp]
  | cons x xs ih =>
    intro p b hap hpb
    match p, b with
    | [], _ => simp [jsLe] at hap
    | _ :: _, [] => simp [jsLe] at hpb
    | z :: zs, y :: ys =>
      simp only [lcp]
      split
      · rename_i hxy
        subst hxy
        simp only [jsLe] at hap hpb
        have hxz : x = z := by
          rcases lt_trichotomy x z with h | h | h
          · rw [if_neg (asymm h), if_pos h] at hpb
            exact absurd hpb (by simp)
          · exact h
          · rw [if_neg (asymm h), if_pos h] at hap
            exact absurd hap (by simp)
        subst hxz
        simp only [lt_irrefl, if_false] at hap hpb
        exact (List.cons_prefix_cons).mpr ⟨rfl, ih zs ys hap hpb⟩
      · simp

theorem headD_mem {α : Type} {l : List α} (h : l ≠ []) (d : α) :
    l.headD d ∈ l := by
  cases l with
  | nil => exact absurd rfl h
  | cons a as => exact List.mem_cons_self a as

theorem getLastD_mem {α : Type} {l : List α} (h : l ≠ []) (d : α) :
    l.getLastD d ∈ l := by
  rw [List.getLastD_eq_getLast?]
  cases hq : l.getLast? with
  | none => exact absurd (List.getLast?_eq_none_iff.mp hq) h
  | some a =>
    obtain ⟨hx, hxe⟩ := List.mem_getLast?_eq_getLast (by rw [hq]; rfl)
    simp only [Option.getD_some]
    rw [hxe]
    exact List.getLast_mem hx

theorem truncAtLastSlash_eq_none {s : Str} :
    truncAtLastSlash s = none ↔ '/' ∉ s := by
  induction s with
  | nil => simp [truncAtLastSlash]
  | cons c rest ih =>
    cases h : truncAtLastSlash rest with
    | some t =>
      have hr : '/' ∈ rest := by
        by_contra hno
        rw [ih.mpr hno] at h
        exact Option.noConfusion h
      simp only [truncAtLastSlash, h]
      simp [hr]
    | none =>
      have hrest := ih.mp h
      simp only [truncAtLastSlash, h]
      by_cases hc : c = '/'
      · subst hc; simp
      · simp only [hc, if_false, List.mem_cons, true_iff]
        intro hor
        rcases hor with h1 | h1
        · exact hc h1.symm
        · exact hrest h1

theorem truncAtLastSlash_eq_some {s c : Str} (h : truncAtLastSlash s = some c) :
    ∃ rest, s = c ++ rest ∧ '/' ∉ rest ∧ c.getLast? = some '/' := by
  induction s generalizing c with
  | nil => exact Option.noConfusion h
  | cons a tail ih =>
    cases ht : truncAtLastSlash tail with
    | some t =>
      simp only [truncAtLastSlash, ht] at h
      obtain rfl : a :: t = c := Option.some_inj.mp h
      obtain ⟨rest, hdec, hno, hlast⟩ := ih ht
      refine ⟨rest, by rw [hdec]; rfl, hno, ?_⟩
      cases t with
      | nil => exact Option.noConfusion hlast
      | cons b bs => rw [List.getLast?_cons_cons]; exact hlast
    | none =>
      simp only [truncAtLastSlash, ht] at h
      split at h
      · rename_i hc
        obtain rfl : [a] = c := Option.some_inj.mp h
        exact ⟨tail, rfl, truncAtLastSlash_eq_none.mp ht, by simp [hc]⟩
      · exact Option.noConfusion h

theorem sorted_headD_le {l : List Str} (hs : List.Sorted jsLeR l) {p : Str}
    (hp : p ∈ l) : jsLe (l.headD []) p = true := by
  cases l with
  | nil => cases hp
  | cons x xs =>
    rcases List.mem_cons.mp hp with h1 | h1
    · subst h1; exact jsLe_refl p
    · exact List.rel_of_sorted_cons hs p h1

theorem sorted_le_getLastD {l : List Str} (hs : List.Sorted jsLeR l) {p : Str}
    (hp : p ∈ l) : jsLe p (l.getLastD []) = true := by
  induction l with
  | nil => cases hp
  | cons x xs ih =>
    cases xs with
    | nil =>
      rcases List.mem_cons.mp hp with h1 | h1
      · subst h1; exact jsLe_refl p
      · cases h1
    | cons y ys =>
      have htail : (x :: y :: ys).getLastD [] = (y :: ys).getLastD [] := by
        rw [List.getLastD_eq_getLast?, List.getLastD_eq_getLast?,
          List.getLast?_cons_cons]
      rw [htail]
      rcases List.mem_cons.mp hp with h1 | h1
      · subst h1
        exact List.rel_of_sorted_cons hs _ (getLastD_mem (by simp) [])
      · exact ih hs.of_cons h1

theorem commonRoot_of_wrap {paths : List Str} {w : Str} (hne : paths ≠ [])
    (hw : ∀ p ∈ paths, w <+: p) (hslash : '/' ∈ w) :
    commonRoot paths ≠ [] ∧ (commonRoot paths).getLast? = some '/' ∧
      ∀ p ∈ paths, commonRoot paths <+: p := by
  match paths, hne with
  | q :: qs, _ =>
    have hperm := List.perm_insertionSort jsLeR (q :: qs)
    have hsorted := List.sorted_insertionSort jsLeR (q :: qs)
    have hsne : List.insertionSort jsLeR (q :: qs) ≠ [] := by
      intro hnil
      have := hperm.length_eq
      rw [hnil] at this
      simp at this
    have hfirstMem : (List.insertionSort jsLeR (q :: qs)).headD [] ∈ q :: qs :=
      hperm.mem_iff.mp (headD_mem hsne [])
    have hlastMem :
        (List.insertionSort jsLeR (q :: qs)).getLastD [] ∈ q :: qs :=
      hperm.mem_iff.mp (getLastD_mem hsne [])
    have hpre : w <+: lcp ((List.insertionSort jsLeR (q :: qs)).headD [])
        ((List.insertionSort jsLeR (q :: qs)).getLastD []) :=
      prefix_lcp_of_prefix w _ _ (hw _ hfirstMem) (hw _ hlastMem)
    have hslashPre : '/' ∈ lcp ((List.insertionSort jsLeR (q :: qs)).headD [])
        ((List.insertionSort jsLeR (q :: qs)).getLastD []) :=
      hpre.subset hslash
    have hprefixAll : ∀ p ∈ q :: qs,
        lcp ((List.insertionSort jsLeR (q :: qs)).headD [])
          ((List.insertionSort jsLeR (q :: qs)).getLastD []) <+: p := by
      intro p hp
      have hpmem : p ∈ List.insertionSort jsLeR (q :: qs) :=
        hperm.mem_iff.mpr hp
      exact lcp_between _ _ _ (sorted_headD_le hsorted hpmem)
        (sorted_le_getLastD hsorted hpmem)
    cases htr : truncAtLastSlash
        (lcp ((List.insertionSort jsLeR (q :: qs)).headD [])
          ((List.insertionSort jsLeR (q :: qs)).getLastD [])) with
    | none => exact absurd hslashPre (truncAtLastSlash_eq_none.mp htr)
    | some c =>
      obtain ⟨rest, hdec, _, hclast⟩ := truncAtLastSlash_eq_some htr
      have hcpre : c <+: lcp ((List.insertionSort jsLeR (q :: qs)).headD [])
          ((List.insertionSort jsLeR (q :: qs)).getLastD []) :=
        ⟨rest, hdec.symm⟩
      have hcAll : ∀ p ∈ q :: qs, c <+: p :=
        fun p hp => hcpre.trans (hprefixAll p hp)
      have hall : (q :: qs).all (fun p => jsStartsWith p c) = true :=
        List.all_eq_true.mpr fun p hp => (jsStartsWith_iff p c).mpr (hcAll p hp)
      have hcr : commonRoot (q :: qs) = c := by
        simp only [commonRoot, htr, hall, if_true]
      refine ⟨?_, ?_, ?_⟩
      · rw [hcr]
        intro hnil
        rw [hnil] at hclast
        exact Option.noConfusion hclast
      · rw [hcr]; exact hclast
      · rw [hcr]; exact hcAll

theorem commonRoot_prefix_of_ne {paths : List Str}
    (h : commonRoot paths ≠ []) : ∀ p ∈ paths, commonRoot paths <+: p := by
  match paths with
  | [] => intro p hp; cases hp
  | q :: qs =>
    intro p hp
    simp only [commonRoot] at h ⊢
    cases htr : truncAtLastSlash
        (lcp ((List.insertionSort jsLeR (q :: qs)).headD [])
          ((List.insertionSort jsLeR (q :: qs)).getLastD [])) with
    | none => exact List.nil_prefix
    | some c =>
      rw [htr] at h
      change (if ((q :: qs).all fun p => jsStartsWith p c) = true
        then c else []) ≠ [] at h
      change (if ((q :: qs).all fun p => jsStartsWith p c) = true
        then c else []) <+: p
      split at h
      · rename_i hall
        rw [if_pos hall]
        exact (jsStartsWith_iff p c).mp (List.all_eq_true.mp hall p hp)
      · exact absurd rfl h

theorem prefix_slash_unique {r w : Str} (hp : r <+: w)
    (hl : r.getLast? = some '/') (hw : '/' ∉ w.dropLast) : r = w := by
  by_contra hne
  have hmem : '/' ∈ r := by
    obtain ⟨hx, hxe⟩ := List.mem_getLast?_eq_getLast (by rw [hl]; rfl)
    rw [hxe]
    exact List.getLast_mem hx
  have hlt : r.length < w.length :=
    lt_of_le_of_ne hp.length_le (fun h => hne (List.IsPrefix.eq_of_length hp h))
  have hdp : r <+: w.dropLast := by
    refine List.prefix_of_prefix_length_le hp (List.dropLast_prefix w) ?_
    rw [List.length_dropLast]
    omega
  exact hw (hdp.subset hmem)

/-- Claim C2: common-root detection sorts the entry paths, takes the longest
common character prefix of the first and last sorted path, truncates it at
the last slash boundary and strips it only when every entry starts with it.
Consequently (i) whenever a folder `d/` wraps every entry, a whole-folder
prefix (ending in a slash, shared by every entry) is stripped, (ii) when
`d/` is the only such wrapping prefix, exactly `d/` is stripped, and (iii)
a partial segment is never stripped: `foo/` is never the detected root of
a path set containing both `foobar/x` and `foo/x`. -/
theorem commonRoot_claim :
    (∀ (paths : List Str) (d : Str), paths ≠ [] →
      (∀ p ∈ paths, (d ++ ['/']) <+: p) →
      commonRoot paths ≠ [] ∧ (commonRoot paths).getLast? = some '/' ∧
        ∀ p ∈ paths, commonRoot paths <+: p) ∧
    (∀ (paths : List Str) (d : Str), paths ≠ [] →
      (∀ p ∈ paths, (d ++ ['/']) <+: p) →
      (∀ r : Str, r.getLast? = some '/' → (∀ p ∈ paths, r <+: p) →
        r = d ++ ['/']) →
      commonRoot paths = d ++ ['/']) ∧
    (∀ paths : List Str, ("foobar/x").data ∈ paths → ("foo/x").data ∈ paths →
      commonRoot paths ≠ ("foo/").data) := by
  refine ⟨?_, ?_, ?_⟩
  · intro paths d hne hw
    exact commonRoot_of_wrap hne hw (by simp)
  · intro paths d hne hw huniq
    obtain ⟨h1, h2, h3⟩ := commonRoot_of_wrap hne hw (by simp)
    exact huniq _ h2 h3
  · intro paths h1 h2 heq
    have hne : commonRoot paths ≠ [] := by
      rw [heq]; decide
    have hpre := commonRoot_prefix_of_ne hne _ h1
    rw [heq] at hpre
    exact absurd hpre (by decide)

/-- Witness for C2 at concrete inputs: for the archive paths
`app/index.html` and `app/css/x.css` the folder `app/` is the unique
wrapping prefix and is detected exactly, and `foo/` is not detected for
`foobar/x` with `foo/x`. -/
theorem commonRoot_claim_witness :
    commonRoot [("app/index.html").data, ("app/css/x.css").data] =
      ("app").data ++ ['/'] ∧
    commonRoot [("foobar/x").data, ("foo/x").data] ≠ ("foo/").data := by
  constructor
  · apply commonRoot_claim.2.1 _ (("app").data) (by decide) (by decide)
    intro r hl hpre
    have ha := hpre (("app/index.html").data) (by simp)
    have hb := hpre (("app/css/x.css").data) (by simp)
    have hlcp : r <+: lcp (("app/index.html").data) (("app/css/x.css").data) :=
      prefix_lcp_of_prefix r _ _ ha hb
    have hval : lcp (("app/index.html").data) (("app/css/x.css").data) =
        ("app/").data := by decide
    rw [hval] at hlcp
    have := prefix_slash_unique hlcp hl (by decide)
    rw [this]
    decide
  · exact commonRoot_claim.2.2 _ (by simp) (by simp [List.mem_cons])

/-- The double-quote character. -/
def dquote : Char := Char.ofNat 34

/-- The single-quote character. -/
def squote : Char := Char.ofNat 39

/-- Character class `["']` of the reference regexes. -/
def isQuoteChar (c : Char) : Bool := c == dquote || c == squote

/-- Case-insensitive `href` continuation of the attribute alternation:
consumes `href` (any case) when the first three characters `a b c` spell
`hre` and the input continues with `f`. -/
def splitHref (a b c : Char) : Str → Option (Str × Str)
  | [] => none
  | d :: rest2 =>
    if a.toLower = 'h' ∧ b.toLower = 'r' ∧ c.toLower = 'e' ∧ d.toLower = 'f'
    then some ([a, b, c, d], rest2)
    else none

/-- Case-insensitive `(src|href)` alternation at the head of `s` (the `/i`
regexes try `src` before `href`; at a fixed position at most one
alternative can match).  Returns the matched attribute text in its
original case together with the remaining input. -/
def splitAttrCI (s : Str) : Option (Str × Str) :=
  match s with
  | a :: b :: c :: rest =>
    if a.toLower = 's' ∧ b.toLower = 'r' ∧ c.toLower = 'c' then
      some ([a, b, c], rest)
    else splitHref a b c rest
  | _ => none

/-- Literal `=` at the head of the input. -/
def parseEq : Str → Option Str
  | [] => none
  | c :: r => if c = '=' then some r else none

/-- One character of the class `["']` at the head of the input. -/
def parseQuote : Str → Option (Char × Str)
  | [] => none
  | c :: r => if isQuoteChar c then some (c, r) else none

/-- Literal `/` followed by the negative lookahead `(?!\/)`. -/
def parseSlashNoSlash : Str → Option Str
  | [] => none
  | [c] => if c = '/' then some [] else none
  | c :: c2 :: t2 =>
    if c = '/' then
      if c2 = '/' then none else some (c2 :: t2)
    else none

/-- Greedy `[^"']*` followed by one `["']` character: returns the matched
run, the closing quote and the remaining input.  No backtracking can occur
because the run excludes quote characters. -/
def parsePathClose (r : Str) : Option (Str × Char × Str) :=
  match r.dropWhile (fun c => !(isQuoteChar c)) with
  | q2 :: r5 => some (r.takeWhile (fun c => !(isQuoteChar c)), q2, r5)
  | [] => none

/-- A match of the rewrite regex `/(src|href)=["']\/(?!\/)([^"']*)["']/gi`
of `fixAbsolutePaths` (the detection regex
`/(href|src)=["']\/(?!\/)[^"']*["']/i` of `analyzeZip` recognises the same
language). -/
structure FixMatch where
  attr : Str
  openQ : Char
  path : Str
  closeQ : Char
  rest : Str

/-- Attempt to match the rewrite regex at the start of `s`. -/
def tryFixMatch (s : Str) : Option FixMatch :=
  (splitAttrCI s).bind fun pr =>
    (parseEq pr.2).bind fun r2 =>
      (parseQuote r2).bind fun qr =>
        (parseSlashNoSlash qr.2).bind fun r4 =>
          (parsePathClose r4).bind fun pc =>
            some ⟨pr.1, qr.1, pc.1, pc.2.1, pc.2.2⟩

theorem splitHref_len {a b c : Char} {rest : Str} {pr : Str × Str}
    (h : splitHref a b c rest = some pr) : pr.2.length < rest.length + 3 := by
  cases rest with
  | nil => exact Option.noConfusion h
  | cons d rest2 =>
    simp only [splitHref] at h
    split at h
    · rw [← Option.some_inj.mp h]
      simp only [List.length_cons]
      omega
    · exact Option.noConfusion h

theorem splitAttrCI_len {s : Str} {pr : Str × Str}
    (h : splitAttrCI s = some pr) : pr.2.length < s.length := by
  match s with
  | [] => exact Option.noConfusion h
  | [a] => exact Option.noConfusion h
  | [a, b] => exact Option.noConfusion h
  | a :: b :: c :: rest =>
    simp only [splitAttrCI] at h
    split at h
    · rw [← Option.some_inj.mp h]
      simp only [List.length_cons]
      omega
    · have := splitHref_len h
      simp only [List.length_cons]
      omega

theorem parseEq_len {r r2 : Str} (h : parseEq r = some r2) :
    r2.length < r.length := by
  cases r with
  | nil => exact Option.noConfusion h
  | cons c t =>
    simp only [parseEq] at h
    split at h
    · rw [← Option.some_inj.mp h]
      simp
    · exact Option.noConfusion h

theorem parseQuote_len {r : Str} {pr : Char × Str}
    (h : parseQuote r = some pr) : pr.2.length < r.length := by
  cases r with
  | nil => exact Option.noConfusion h
  | cons c t =>
    simp only [parseQuote] at h
    split at h
    · rw [← Option.some_inj.mp h]
      simp
    · exact Option.noConfusion h

theorem parseSlashNoSlash_len {r r4 : Str} (h : parseSlashNoSlash r = some r4) :
    r4.length < r.length := by
  match r with
  | [] => exact Option.noConfusion h
  | [c] =>
    simp only [parseSlashNoSlash] at h
    split at h
    · rw [← Option.some_inj.mp h]
      simp
    · exact Option.noConfusion h
  | c :: c2 :: t2 =>
    simp only [parseSlashNoSlash] at h
    split at h
    · split at h
      · exact Option.noConfusion h
      · rw [← Option.some_inj.mp h]
        simp
    · exact Option.noConfusion h

theorem parsePathClose_len {r : Str} {pc : Str × Char × Str}
    (h : parsePathClose r = some pc) : pc.2.2.length < r.length := by
  have hsplit : r.takeWhile (fun c => !(isQuoteChar c)) ++
      r.dropWhile (fun c => !(isQuoteChar c)) = r :=
    List.takeWhile_append_dropWhile (fun c => !(isQuoteChar c)) r
  simp only [parsePathClose] at h
  split at h
  · rename_i q2' r5' hdrop
    rw [← Option.some_inj.mp h]
    have hlen := congrArg List.length hsplit
    rw [hdrop] at hlen
    simp only [List.length_append, List.length_cons] at hlen
    show r5'.length < r.length
    omega
  · exact Option.noConfusion h

theorem tryFixMatch_rest_len {s : Str} {m : FixMatch}
    (h : tryFixMatch s = some m) : m.rest.length < s.length := by
  simp only [tryFixMatch] at h
  cases h1 : splitAttrCI s with
  | none => rw [h1] at h; exact Option.noConfusion h
  | some pr =>
    rw [h1, Option.some_bind] at h
    cases h2 : parseEq pr.2 with
    | none => rw [h2] at h; exact Option.noConfusion h
    | some r2 =>
      rw [h2, Option.some_bind] at h
      cases h3 : parseQuote r2 with
      | none => rw [h3] at h; exact Option.noConfusion h
      | some qr =>
        rw [h3, Option.some_bind] at h
        cases h4 : parseSlashNoSlash qr.2 with
        | none => rw [h4] at h; exact Option.noConfusion h
        | some r4 =>
          rw [h4, Option.some_bind] at h
          cases h5 : parsePathClose r4 with
          | none => rw [h5] at h; exact Option.noConfusion h
          | some pc =>
            rw [h5, Option.some_bind] at h
            have hm : m.rest = pc.2.2 := by
              rw [← Option.some_inj.mp h]
            have l1 := splitAttrCI_len h1
            have l2 := parseEq_len h2
            have l3 := parseQuote_len h3
            have l4 := parseSlashNoSlash_len h4
            have l5 := parsePathClose_len h5
            rw [hm]
            omega

/-- The full text of a rewrite-regex match (capture 0). -/
def fixMatchStr (m : FixMatch) : Str :=
  m.attr ++ '=' :: m.openQ :: '/' :: (m.path ++ [m.closeQ])

/-- Replacement computed by the `fixAbsolutePaths` callback:
`quote = match.includes('"') ? '"' : "'"` and the result is
`attr=quote./path quote`. -/
def fixReplacement (m : FixMatch) : Str :=
  let q := if jsIncludes [dquote] (fixMatchStr m) then dquote else squote
  m.attr ++ '=' :: q :: '.' :: '/' :: (m.path ++ [q])

/-- Model of `regex.test(content)` for the absolute-path detection regex
`/(href|src)=["']\/(?!\/)[^"']*["']/i` of `analyzeZip`: is there a match
at any position? -/
def hasAbsMatch : Str → Bool
  | [] => false
  | c :: rest => (tryFixMatch (c :: rest)).isSome || hasAbsMatch rest

/-- Fuel-indexed scanner for the global rewrite regex; the fuel only
serves structural termination and is always at least the input length at
every call (`tryFixMatch` consumes at least one character). -/
def fixScanFuel : Nat → Str → Bool × Str
  | 0, _ => (false, [])
  | _ + 1, [] => (false, [])
  | fuel + 1, c :: rest =>
    match tryFixMatch (c :: rest) with
    | some m =>
      let r := fixScanFuel fuel m.rest
      (true, fixReplacement m ++ r.2)
    | none =>
      let r := fixScanFuel fuel rest
      (r.1, c :: r.2)

/-- Model of `content.replace(regex, ...)` with the global rewrite regex of
`fixAbsolutePaths`: non-overlapping leftmost matches are replaced left to
right; the Boolean records whether the replacement callback ran (the
`modified` flag). -/
def fixScan (s : Str) : Bool × Str := fixScanFuel s.length s

/-- Case-sensitive `href` continuation for the asset-reference regex. -/
def splitHrefCS (a b c : Char) : Str → Option Str
  | [] => none
  | d :: rest2 =>
    if a = 'h' ∧ b = 'r' ∧ c = 'e' ∧ d = 'f' then some rest2 else none

/-- Case-sensitive `(?:src|href)` alternation of the asset-reference regex
`/(?:src|href)=["']([^"']+)["']/g` used on the captured `index.html`. -/
def splitAttrCS (s : Str) : Option Str :=
  match s with
  | a :: b :: c :: rest =>
    if a = 's' ∧ b = 'r' ∧ c = 'c' then some rest
    else splitHrefCS a b c rest
  | _ => none

/-- Greedy `([^"']+)["']`: the nonempty captured reference and the input
after the closing quote. -/
def parseRefClose (r : Str) : Option (Str × Str) :=
  match r.dropWhile (fun c => !(isQuoteChar c)) with
  | q2 :: r5 =>
    if r.takeWhile (fun c => !(isQuoteChar c)) = [] then none
    else some (r.takeWhile (fun c => !(isQuoteChar c)), r5)
  | [] => none

/-- Attempt to match the asset-reference regex at the start of `s`,
returning the captured reference and the rest of the input. -/
def tryRefMatch (s : Str) : Option (Str × Str) :=
  (splitAttrCS s).bind fun r1 =>
    (parseEq r1).bind fun r2 =>
      (parseQuote r2).bind fun qr =>
        (parseRefClose qr.2).bind fun pr => some pr

theorem splitHrefCS_len {a b c : Char} {rest r1 : Str}
    (h : splitHrefCS a b c rest = some r1) : r1.length < rest.length + 3 := by
  cases rest with
  | nil => exact Option.noConfusion h
  | cons d rest2 =>
    simp only [splitHrefCS] at h
    split at h
    · rw [← Option.some_inj.mp h]
      simp only [List.length_cons]
      omega
    · exact Option.noConfusion h

theorem splitAttrCS_len {s r1 : Str} (h : splitAttrCS s = some r1) :
    r1.length < s.length := by
  match s with
  | [] => exact Option.noConfusion h
  | [a] => exact Option.noConfusion h
  | [a, b] => exact Option.noConfusion h
  | a :: b :: c :: rest =>
    simp only [splitAttrCS] at h
    split at h
    · rw [← Option.some_inj.mp h]
      simp only [List.length_cons]
      omega
    · have := splitHrefCS_len h
      simp only [List.length_cons]
      omega

theorem parseRefClose_len {r : Str} {pr : Str × Str}
    (h : parseRefClose r = some pr) : pr.2.length < r.length := by
  have hsplit : r.takeWhile (fun c => !(isQuoteChar c)) ++
      r.dropWhile (fun c => !(isQuoteChar c)) = r :=
    List.takeWhile_append_dropWhile (fun c => !(isQuoteChar c)) r
  simp only [parseRefClose] at h
  split at h
  · rename_i q2' r5' hdrop
    split at h
    · exact Option.noConfusion h
    · rw [← Option.some_inj.mp h]
      have hlen := congrArg List.length hsplit
      rw [hdrop] at hlen
      simp only [List.length_append, List.length_cons] at hlen
      show r5'.length < r.length
      omega
  · exact Option.noConfusion h

theorem tryRefMatch_rest_len {s : Str} {pr : Str × Str}
    (h : tryRefMatch s = some pr) : pr.2.length < s.length := by
  simp only [tryRefMatch] at h
  cases h1 : splitAttrCS s with
  | none => rw [h1] at h; exact Option.noConfusion h
  | some r1 =>
    rw [h1, Option.some_bind] at h
    cases h2 : parseEq r1 with
    | none => rw [h2] at h; exact Option.noConfusion h
    | some r2 =>
      rw [h2, Option.some_bind] at h
      cases h3 : parseQuote r2 with
      | none => rw [h3] at h; exact Option.noConfusion h
      | some qr =>
        rw [h3, Option.some_bind] at h
        cases h4 : parseRefClose qr.2 with
        | none => rw [h4] at h; exact Option.noConfusion h
        | some pr4 =>
          rw [h4, Option.some_bind] at h
          have hm : pr = pr4 := (Option.some_inj.mp h).symm
          have l1 := splitAttrCS_len h1
          have l2 := parseEq_len h2
          have l3 := parseQuote_len h3
          have l4 := parseRefClose_len h4
          rw [hm]
          omega

/-- Fuel-indexed scanner for the asset-reference regex; the fuel only
serves structural termination and is always at least the input length at
every call. -/
def refMatchAllFuel : Nat → Str → List Str
  | 0, _ => []
  | _ + 1, [] => []
  | fuel + 1, c :: rest =>
    match tryRefMatch (c :: rest) with
    | some pr => pr.1 :: refMatchAllFuel fuel pr.2
    | none => refMatchAllFuel fuel rest

/-- Model of `content.matchAll(/(?:src|href)=["']([^"']+)["']/g)`: the list
of captured references of the non-overlapping leftmost matches. -/
def refMatchAll (s : Str) : List Str := refMatchAllFuel s.length s

/-- The closed project-type enumeration of `ZipAnalysis.projectType`. -/
inductive ProjectType where
  | staticWebsite
  | nodeProject
  | vite
  | createReactApp
  | nextJS
  | angular
  | vue
  | unknown
deriving DecidableEq

/-- A kept manifest file: root-relative path, size and content (the JSZip
entry is modelled by the content it yields). -/
structure ManifestFile where
  path : Str
  size : Nat
  content : Str
deriving DecidableEq

/-- An entry excluded from the manifest, with its reason. -/
structure IgnoredFile where
  path : Str
  reason : Str
deriving DecidableEq

/-- A raw archive entry as enumerated by `zip.forEach`. -/
structure ZipEntry where
  path : Str
  dir : Bool
  content : Str
deriving DecidableEq

/-- The analysis result (the `zip` handle of the TypeScript interface is
not modelled; every other field is). -/
structure ZipAnalysis where
  fileCount : Nat
  totalSize : Nat
  projectType : ProjectType
  files : List ManifestFile
  warnings : List Str
  ignoredFiles : List IgnoredFile
deriving DecidableEq

/-- An auto-fix patch: a file to create or overwrite at upload time. -/
structure AutoFixPatch where
  path : Str
  content : Str
  description : Str
deriving DecidableEq

/-- Signal 1: `files.some(f => f.path.match(/vite\.config\.(js|ts)/))`. -/
def hasViteConfig (paths : List Str) : Bool :=
  paths.any fun p =>
    jsIncludes (("vite.config.js").data) p ||
    jsIncludes (("vite.config.ts").data) p

/-- Signal 2: `files.some(f => f.path.match(/next\.config\.(js|mjs|ts)/))`. -/
def hasNextConfig (paths : List Str) : Bool :=
  paths.any fun p =>
    jsIncludes (("next.config.js").data) p ||
    jsIncludes (("next.config.mjs").data) p ||
    jsIncludes (("next.config.ts").data) p

/-- Signal 3: `files.some(f => f.path === "angular.json")`. -/
def hasAngularJson (paths : List Str) : Bool :=
  paths.any fun p => p == ("angular.json").data

/-- Signal 4: `files.some(f => f.path.includes("vue.config.js"))`. -/
def hasVueConfig (paths : List Str) : Bool :=
  paths.any fun p => jsIncludes (("vue.config.js").data) p

/-- Signal 5 (partial): `files.some(f => f.path.includes("react-scripts"))`. -/
def hasReactScripts (paths : List Str) : Bool :=
  paths.any fun p => jsIncludes (("react-scripts").data) p

/-- The ordered project classifier of `analyzeZip` (step 4), over the kept
file paths and the `hasPackageJson` / `hasIndexHtml` flags gathered in the
processing loop. -/
def classify (paths : List Str) (hasPackageJson hasIndexHtml : Bool) :
    ProjectType :=
  if hasViteConfig paths then ProjectType.vite
  else if hasNextConfig paths then ProjectType.nextJS
  else if hasAngularJson paths then ProjectType.angular
  else if hasVueConfig paths then ProjectType.vue
  else if hasPackageJson && hasReactScripts paths then
    ProjectType.createReactApp
  else if hasIndexHtml then ProjectType.staticWebsite
  else if hasPackageJson then ProjectType.nodeProject
  else ProjectType.unknown

/-- Push a warning only when the identical text is not already present
(`if (!warnings.includes(w)) warnings.push(w)`). -/
def pushUnique (ws : List Str) (w : Str) : List Str :=
  if jsElem w ws then ws else ws ++ [w]

/-- The de-duplicated absolute-path warning text. -/
def absWarning : Str :=
  ("Absolute paths detected (e.g., src=\"/script.js\"). This breaks GitHub Pages.").data

/-- The smart-filtering decision chain of the `analyzeZip` processing
loop: the ignore reason for a path, if any. -/
def ignoreReasonFor (finalPath : Str) : Option Str :=
  if jsIncludes ((".DS_Store").data) finalPath ||
      jsIncludes (("Thumbs.db").data) finalPath then
    some (("System file").data)
  else if jsIncludes (("node_modules/").data) finalPath then
    some (("Dependency folder (should be built)").data)
  else if jsStartsWith finalPath ((".git/").data) then
    some (("Git metadata").data)
  else if jsEndsWith finalPath ((".log").data) then
    some (("Log file").data)
  else if jsEndsWith finalPath ((".env").data) then
    some (("Environment file (security risk)").data)
  else if jsIncludes ((".vscode/").data) finalPath ||
      jsIncludes ((".idea/").data) finalPath then
    some (("Editor config").data)
  else none

/-- Mutable state of the `for (const { path, entry } of rawFiles)` loop of
`analyzeZip`. -/
structure ScanState where
  files : List ManifestFile
  ignoredFiles : List IgnoredFile
  totalSize : Nat
  hasIndexHtml : Bool
  hasPackageJson : Bool
  hasDistOrBuild : Bool
  indexHtmlContent : Str
  warnings : List Str

/-- One iteration of the `analyzeZip` processing loop: strip the detected
root, compute the size, either record an ignored file or keep the file,
update the flags, capture a small root `index.html`, and raise the
de-duplicated absolute-path warning for small HTML/CSS/JS files. -/
def scanStep (root : Str) (st : ScanState) (e : ZipEntry) : ScanState :=
  let finalPath := if root != [] then e.path.drop root.length else e.path
  let size := e.content.length
  match ignoreReasonFor finalPath with
  | some reason =>
    { st with ignoredFiles := st.ignoredFiles ++ [⟨finalPath, reason⟩] }
  | none =>
    let st := { st with
      files := st.files ++ [⟨finalPath, size, e.content⟩],
      totalSize := st.totalSize + size }
    let st := if finalPath == ("index.html").data then
        { st with
          hasIndexHtml := true,
          indexHtmlContent :=
            if size < 500 * 1024 then e.content else st.indexHtmlContent }
      else st
    let st := if finalPath == ("package.json").data then
        { st with hasPackageJson := true }
      else st
    let st := if jsStartsWith finalPath (("dist/").data) ||
        jsStartsWith finalPath (("build/").data) ||
        jsStartsWith finalPath (("out/").data) then
        { st with hasDistOrBuild := true }
      else st
    if (jsEndsWith finalPath ((".html").data) ||
        jsEndsWith finalPath ((".css").data) ||
        jsEndsWith finalPath ((".js").data)) &&
        decide (size < 1024 * 1024) && hasAbsMatch e.content then
      { st with warnings := pushUnique st.warnings absWarning }
    else st

/-- Skip rule of the asset validation loop: absolute URLs,
protocol-relative URLs, fragment-only references and root-absolute
references are skipped (`continue`). -/
def skipRef (ref : Str) : Bool :=
  jsStartsWith ref (("http").data) || jsStartsWith ref (("//").data) ||
  jsStartsWith ref (("#").data) || jsStartsWith ref (("/").data)

/-- JavaScript `s.split(stop)[0]`: the text before the first occurrence of
the separator character. -/
def jsTakeUntil (stop : Char) (s : Str) : Str :=
  s.takeWhile (fun c => c != stop)

/-- Reference normalisation of the asset validation loop:
`ref.split("?")[0].split("#")[0]` then stripping a leading `./`. -/
def normalizeRef (ref : Str) : Str :=
  let r1 := jsTakeUntil '?' ref
  let r2 := jsTakeUntil '#' r1
  if jsStartsWith r2 (("./").data) then r2.drop 2 else r2

/-- Warning text for a missing asset reference. -/
def missingAssetMsg (ref : Str) : Str :=
  ("Missing asset referenced in index.html: '").data ++ ref ++ [squote]

/-- One iteration of the asset validation loop of `analyzeZip`. -/
def missingAssetStep (files : List ManifestFile) (ws : List Str) (ref : Str) :
    List Str :=
  if skipRef ref then ws
  else if files.any (fun f => f.path == normalizeRef ref) then ws
  else pushUnique ws (missingAssetMsg (normalizeRef ref))

/-- The asset validation loop of `analyzeZip`: fold the loop body over the
references extracted from the captured root `index.html`. -/
def missingAssetScan (files : List ManifestFile) (indexContent : Str)
    (ws : List Str) : List Str :=
  (refMatchAll indexContent).foldl (missingAssetStep files) ws

/-- Warning for an uploaded source tree with a build output directory. -/
def distBuildWarning : Str :=
  ("Found 'package.json' and 'dist/build' folder. You likely uploaded the source code. Please upload ONLY the contents of the 'dist' or 'build' folder.").data

/-- Warning for an uploaded source tree with no root `index.html`. -/
def srcCodeWarning : Str :=
  ("Detected 'package.json' but no 'index.html' at root. Are you uploading source code? You must build your project first (npm run build) and upload the output folder.").data

/-- Warning naming a nested `index.html`. -/
def nestedIndexWarning (p : Str) : Str :=
  (("'index.html' found at '").data) ++ p ++
    (("'. It must be at the root level. Please unzip, go into the folder, and zip the CONTENTS.").data)

/-- Warning when no entry page exists at all. -/
def noIndexWarning : Str :=
  ("No 'index.html' found. Your site will not load.").data

/-- The empty loop state. -/
def initialScanState : ScanState := ⟨[], [], 0, false, false, false, [], []⟩

/-- The warning stages of `analyzeZip` after the processing loop: the
asset validation of a captured root `index.html`, then the
misplaced-source warnings, then the nested-root / no-entry-page
warnings. -/
def buildWarnings (st : ScanState) (projectType : ProjectType) : List Str :=
  let warnings :=
    if st.hasIndexHtml && st.indexHtmlContent != [] then
      missingAssetScan st.files st.indexHtmlContent st.warnings
    else st.warnings
  let warnings :=
    if st.hasPackageJson && !st.hasIndexHtml &&
        decide (projectType = ProjectType.unknown) then
      if st.hasDistOrBuild then warnings ++ [distBuildWarning]
      else warnings ++ [srcCodeWarning]
    else warnings
  let warnings :=
    if !st.hasIndexHtml && !st.hasPackageJson &&
        decide (projectType = ProjectType.unknown) then
      match st.files.find? (fun f => jsEndsWith f.path (("/index.html").data))
        with
      | some nested => warnings ++ [nestedIndexWarning nested.path]
      | none => warnings ++ [noIndexWarning]
    else warnings
  warnings

/-- Shallow embedding of `analyzeZip`: filter directory entries and
`__MACOSX` junk, detect and strip the common root, run the processing
loop, classify, validate the assets referenced by a captured root
`index.html`, and add the misplaced-source / nested-root warnings. -/
def analyzeZip (entries : List ZipEntry) : ZipAnalysis :=
  let rawFiles := entries.filter fun e =>
    !e.dir && !(jsIncludes (("__MACOSX").data) e.path)
  let root := commonRoot (rawFiles.map fun f => f.path)
  let st := rawFiles.foldl (scanStep root) initialScanState
  let projectType :=
    classify (st.files.map fun f => f.path) st.hasPackageJson st.hasIndexHtml
  ⟨st.files.length, st.totalSize, projectType, st.files,
    buildWarnings st projectType, st.ignoredFiles⟩

/-- File filter of `fixAbsolutePaths`: only HTML/CSS/JS files
(`/\.(html|css|js)$/i`) are rewritten. -/
def isFixableExt (p : Str) : Bool :=
  jsEndsWith (p.map Char.toLower) ((".html").data) ||
  jsEndsWith (p.map Char.toLower) ((".css").data) ||
  jsEndsWith (p.map Char.toLower) ((".js").data)

/-- Per-file transform of `fixAbsolutePaths`: skip non-HTML/CSS/JS files
and files over 1 MB, otherwise rewrite root-absolute references; when the
callback fired, the new entry carries the rewritten content and
`size = content.length`. -/
def fixFile (f : ManifestFile) : ManifestFile :=
  if !isFixableExt f.path then f
  else if decide (f.size > 1024 * 1024) then f
  else
    let r := fixScan f.content
    if r.1 then ⟨f.path, r.2.length, r.2⟩ else f

/-- Shallow embedding of `fixAbsolutePaths`: rewrite every file, drop the
absolute-path warning, and keep every other field of the analysis. -/
def fixAbsolutePaths (a : ZipAnalysis) : ZipAnalysis :=
  { a with
    files := a.files.map fixFile,
    warnings := a.warnings.filter fun w =>
      !(jsIncludes (("Absolute paths detected").data) w) }

/-- Claim C1: the project classifier is a pure function of the kept file
list evaluated as an ordered decision list with first match winning, in
the precedence Vite, Next.js, Angular, Vue, CRA, StaticSite, NodeProject,
Unknown; CRA requires the `package.json` flag plus the `react-scripts`
toolchain fingerprint; and an archive containing both a Vite config and an
Angular workspace file classifies as Vite. -/
theorem classify_claim :
    (∀ (paths : List Str) (pkg idx : Bool),
      (classify paths pkg idx = ProjectType.vite ↔
        hasViteConfig paths = true) ∧
      (classify paths pkg idx = ProjectType.nextJS ↔
        hasViteConfig paths = false ∧ hasNextConfig paths = true) ∧
      (classify paths pkg idx = ProjectType.angular ↔
        hasViteConfig paths = false ∧ hasNextConfig paths = false ∧
        hasAngularJson paths = true) ∧
      (classify paths pkg idx = ProjectType.vue ↔
        hasViteConfig paths = false ∧ hasNextConfig paths = false ∧
        hasAngularJson paths = false ∧ hasVueConfig paths = true) ∧
      (classify paths pkg idx = ProjectType.createReactApp ↔
        hasViteConfig paths = false ∧ hasNextConfig paths = false ∧
        hasAngularJson paths = false ∧ hasVueConfig paths = false ∧
        pkg = true ∧ hasReactScripts paths = true) ∧
      (classify paths pkg idx = ProjectType.staticWebsite ↔
        hasViteConfig paths = false ∧ hasNextConfig paths = false ∧
        hasAngularJson paths = false ∧ hasVueConfig paths = false ∧
        (pkg && hasReactScripts paths) = false ∧ idx = true) ∧
      (classify paths pkg idx = ProjectType.nodeProject ↔
        hasViteConfig paths = false ∧ hasNextConfig paths = false ∧
        hasAngularJson paths = false ∧ hasVueConfig paths = false ∧
        (pkg && hasReactScripts paths) = false ∧ idx = false ∧
        pkg = true) ∧
      (classify paths pkg idx = ProjectType.unknown ↔
        hasViteConfig paths = false ∧ hasNextConfig paths = false ∧
        hasAngularJson paths = false ∧ hasVueConfig paths = false ∧
        (pkg && hasReactScripts paths) = false ∧ idx = false ∧
        pkg = false)) ∧
    (analyzeZip [⟨("proj/vite.config.ts").data, false, []⟩,
        ⟨("proj/angular.json").data, false, []⟩]).projectType =
      ProjectType.vite := by
  constructor
  · intro paths pkg idx
    unfold classify
    split_ifs with h1 h2 h3 h4 h5 h6 h7 <;> simp_all
  · decide

theorem scanStep_totalSize {root : Str} {st : ScanState} (e : ZipEntry)
    (h : st.totalSize = (st.files.map ManifestFile.size).sum) :
    (scanStep root st e).totalSize =
      ((scanStep root st e).files.map ManifestFile.size).sum := by
  simp only [scanStep]
  split
  · simpa using h
  · split_ifs <;> simp [h, List.sum_append]

theorem foldl_scan_totalSize (root : Str) (es : List ZipEntry) :
    ∀ st : ScanState, st.totalSize = (st.files.map ManifestFile.size).sum →
      (es.foldl (scanStep root) st).totalSize =
        ((es.foldl (scanStep root) st).files.map ManifestFile.size).sum := by
  induction es with
  | nil => intro st h; exact h
  | cons e es ih => intro st h; exact ih _ (scanStep_totalSize e h)

/-- Claim C7: `analyzeZip` always returns `totalSize` equal to the sum of
the kept file sizes, but the apply-fix transform `fixAbsolutePaths` breaks
the invariant: it updates the per-file `size` of each rewritten file while
keeping the stale `totalSize`, exhibited on a one-file archive whose
`index.html` contains a root-absolute `src="/x"` reference. -/
theorem totalSize_claim :
    (∀ entries : List ZipEntry,
      (analyzeZip entries).totalSize =
        ((analyzeZip entries).files.map ManifestFile.size).sum) ∧
    (fixAbsolutePaths (analyzeZip
        [⟨("index.html").data, false, ("src=\"/x\"").data⟩])).totalSize ≠
      ((fixAbsolutePaths (analyzeZip
        [⟨("index.html").data, false, ("src=\"/x\"").data⟩])).files.map
          ManifestFile.size).sum := by
  constructor
  · intro entries
    simp only [analyzeZip]
    exact foldl_scan_totalSize _ _ initialScanState rfl
  · decide

theorem mem_pushUnique {ws : List Str} {w x : Str} :
    x ∈ pushUnique ws w ↔ x ∈ ws ∨ x = w := by
  unfold pushUnique
  split
  · rename_i hmem
    have hw : w ∈ ws := (jsElem_iff _ _).mp hmem
    constructor
    · exact fun h => Or.inl h
    · rintro (h | rfl)
      · exact h
      · exact hw
  · simp

theorem pushUnique_nodup {ws : List Str} {w : Str} (h : ws.Nodup) :
    (pushUnique ws w).Nodup := by
  unfold pushUnique
  split
  · exact h
  · rename_i hmem
    have hw : w ∉ ws := fun hin => hmem ((jsElem_iff _ _).mpr hin)
    simp [List.nodup_append, h, hw]

theorem scanStep_warnings {root : Str} {st : ScanState} (e : ZipEntry)
    (h : st.warnings = [] ∨ st.warnings = [absWarning]) :
    (scanStep root st e).warnings = [] ∨
      (scanStep root st e).warnings = [absWarning] := by
  simp only [scanStep]
  split
  · simpa using h
  · split_ifs <;> try simpa using h
    all_goals
      rcases h with h | h <;>
        simp [pushUnique, h, jsElem]

theorem foldl_scan_warnings (root : Str) (es : List ZipEntry) :
    ∀ st : ScanState,
      (st.warnings = [] ∨ st.warnings = [absWarning]) →
      ((es.foldl (scanStep root) st).warnings = [] ∨
        (es.foldl (scanStep root) st).warnings = [absWarning]) := by
  induction es with
  | nil => intro st h; exact h
  | cons e es ih => intro st h; exact ih _ (scanStep_warnings e h)

theorem missingAssetStep_nodup {files : List ManifestFile} {ws : List Str}
    {ref : Str} (h : ws.Nodup) : (missingAssetStep files ws ref).Nodup := by
  unfold missingAssetStep
  split
  · exact h
  · split
    · exact h
    · exact pushUnique_nodup h

theorem mem_missingAssetStep {files : List ManifestFile} {ws : List Str}
    {ref x : Str} (h : x ∈ missingAssetStep files ws ref) :
    x ∈ ws ∨ ∃ r, x = missingAssetMsg r := by
  unfold missingAssetStep at h
  split at h
  · exact Or.inl h
  · split at h
    · exact Or.inl h
    · rcases mem_pushUnique.mp h with h1 | h1
      · exact Or.inl h1
      · exact Or.inr ⟨_, h1⟩

theorem foldl_missingAssetStep_nodup {files : List ManifestFile} :
    ∀ (refs : List Str) (ws : List Str), ws.Nodup →
      (refs.foldl (missingAssetStep files) ws).Nodup := by
  intro refs
  induction refs with
  | nil => intro ws h; exact h
  | cons r rs ih => intro ws h; exact ih _ (missingAssetStep_nodup h)

theorem mem_foldl_missingAssetStep {files : List ManifestFile} {x : Str} :
    ∀ (refs : List Str) (ws : List Str),
      x ∈ refs.foldl (missingAssetStep files) ws →
      x ∈ ws ∨ ∃ r, x = missingAssetMsg r := by
  intro refs
  induction refs with
  | nil => intro ws h; exact Or.inl h
  | cons r rs ih =>
    intro ws h
    rcases ih _ h with h1 | h1
    · exact mem_missingAssetStep h1
    · exact Or.inr h1

theorem missingAssetScan_nodup {files : List ManifestFile} {content : Str}
    {ws : List Str} (h : ws.Nodup) :
    (missingAssetScan files content ws).Nodup :=
  foldl_missingAssetStep_nodup _ _ h

theorem mem_missingAssetScan {files : List ManifestFile} {content : Str}
    {ws : List Str} {x : Str} (h : x ∈ missingAssetScan files content ws) :
    x ∈ ws ∨ ∃ r, x = missingAssetMsg r :=
  mem_foldl_missingAssetStep _ _ h

theorem absWarning_head : absWarning.head? = some 'A' := rfl

theorem missingAssetMsg_head (r : Str) :
    (missingAssetMsg r).head? = some 'M' := rfl

theorem distBuildWarning_head : distBuildWarning.head? = some 'F' := rfl

theorem srcCodeWarning_head : srcCodeWarning.head? = some 'D' := rfl

theorem nestedIndexWarning_head (p : Str) :
    (nestedIndexWarning p).head? = some squote := rfl

theorem noIndexWarning_head : noIndexWarning.head? = some 'N' := rfl

theorem nodup_append_single {ws : List Str} {x : Str} (hn : ws.Nodup)
    (hx : x ∉ ws) : (ws ++ [x]).Nodup := by
  simp [List.nodup_append, hn, hx]

theorem buildWarnings_nodup (st : ScanState) (pt : ProjectType)
    (hA : st.warnings = [] ∨ st.warnings = [absWarning]) :
    (buildWarnings st pt).Nodup := by
  have hAnodup : st.warnings.Nodup := by
    rcases hA with h | h <;> simp [h]
  have hAheads : ∀ w ∈ st.warnings, w.head? = some 'A' := by
    rcases hA with h | h <;> simp [h, absWarning_head]
  simp only [buildWarnings]
  set w1 := (if st.hasIndexHtml && st.indexHtmlContent != [] then
    missingAssetScan st.files st.indexHtmlContent st.warnings
    else st.warnings) with hw1
  have h1nodup : w1.Nodup := by
    rw [hw1]
    split
    · exact missingAssetScan_nodup hAnodup
    · exact hAnodup
  have h1heads : ∀ w ∈ w1, w.head? = some 'A' ∨ w.head? = some 'M' := by
    rw [hw1]
    split
    · intro w hw
      rcases mem_missingAssetScan hw with h | ⟨r, rfl⟩
      · exact Or.inl (hAheads w h)
      · exact Or.inr (missingAssetMsg_head r)
    · intro w hw
      exact Or.inl (hAheads w hw)
  set w2 := (if st.hasPackageJson && !st.hasIndexHtml &&
      decide (pt = ProjectType.unknown) then
    if st.hasDistOrBuild then w1 ++ [distBuildWarning]
    else w1 ++ [srcCodeWarning]
    else w1) with hw2
  have h2nodup : w2.Nodup := by
    rw [hw2]
    split
    · split
      · refine nodup_append_single h1nodup (fun hmem => ?_)
        rcases h1heads _ hmem with h | h <;>
          rw [distBuildWarning_head] at h <;> exact absurd h (by decide)
      · refine nodup_append_single h1nodup (fun hmem => ?_)
        rcases h1heads _ hmem with h | h <;>
          rw [srcCodeWarning_head] at h <;> exact absurd h (by decide)
    · exact h1nodup
  have h2heads : ∀ w ∈ w2, w.head? = some 'A' ∨ w.head? = some 'M' ∨
      w.head? = some 'F' ∨ w.head? = some 'D' := by
    rw [hw2]
    split
    · split <;> intro w hw <;> rcases List.mem_append.mp hw with h | h
      · rcases h1heads w h with h1 | h1
        · exact Or.inl h1
        · exact Or.inr (Or.inl h1)
      · rw [List.mem_singleton.mp h]
        exact Or.inr (Or.inr (Or.inl distBuildWarning_head))
      · rcases h1heads w h with h1 | h1
        · exact Or.inl h1
        · exact Or.inr (Or.inl h1)
      · rw [List.mem_singleton.mp h]
        exact Or.inr (Or.inr (Or.inr srcCodeWarning_head))
    · intro w hw
      rcases h1heads w hw with h1 | h1
      · exact Or.inl h1
      · exact Or.inr (Or.inl h1)
  split
  · split
    · refine nodup_append_single h2nodup (fun hmem => ?_)
      rcases h2heads _ hmem with h | h | h | h <;>
        rw [nestedIndexWarning_head] at h <;>
        exact absurd h (by decide)
    · refine nodup_append_single h2nodup (fun hmem => ?_)
      rcases h2heads _ hmem with h | h | h | h <;>
        rw [noIndexWarning_head] at h <;>
        exact absurd h (by decide)
  · exact h2nodup

set_option maxRecDepth 4000 in
/-- Claim C8: the warnings list of every analysis is duplicate-free, and an
archive of 50 files each containing a root-absolute `src="/x"` reference
yields exactly one absolute-path warning. -/
theorem warnings_claim :
    (∀ entries : List ZipEntry, (analyzeZip entries).warnings.Nodup) ∧
    (analyzeZip (List.replicate 50
        ⟨("a.html").data, false, ("src=\"/x\"").data⟩)).warnings.count
      absWarning = 1 := by
  constructor
  · intro entries
    simp only [analyzeZip]
    exact buildWarnings_nodup _ _ (foldl_scan_warnings _ _ _ (Or.inl rfl))
  · decide

theorem scanStep_files_flag (root : Str) (st : ScanState) (e : ZipEntry) :
    ((scanStep root st e).files = st.files ∧
      (scanStep root st e).hasIndexHtml = st.hasIndexHtml) ∨
    (∃ fp : Str,
      (scanStep root st e).files =
        st.files ++ [⟨fp, e.content.length, e.content⟩] ∧
      (scanStep root st e).hasIndexHtml =
        (st.hasIndexHtml || (fp == ("index.html").data))) := by
  simp only [scanStep]
  generalize (if root != [] then e.path.drop root.length else e.path) = fp
  split
  · left
    simp
  · right
    refine ⟨fp, ?_⟩
    split_ifs <;> simp_all

theorem scanStep_indexFlag {root : Str} {st : ScanState} (e : ZipEntry)
    (h : st.hasIndexHtml = true →
      ∃ f ∈ st.files, f.path = ("index.html").data) :
    (scanStep root st e).hasIndexHtml = true →
      ∃ f ∈ (scanStep root st e).files, f.path = ("index.html").data := by
  intro hx
  rcases scanStep_files_flag root st e with ⟨hf, hflag⟩ | ⟨fp, hf, hflag⟩
  · rw [hflag] at hx
    obtain ⟨f, hm, hp⟩ := h hx
    rw [hf]
    exact ⟨f, hm, hp⟩
  · rw [hflag] at hx
    simp only [Bool.or_eq_true] at hx
    rcases hx with h1 | h1
    · obtain ⟨f, hm, hp⟩ := h h1
      rw [hf]
      exact ⟨f, List.mem_append_left _ hm, hp⟩
    · rw [hf]
      refine ⟨⟨fp, e.content.length, e.content⟩,
        List.mem_append_right _ (List.mem_singleton_self _), ?_⟩
      simpa using h1

theorem foldl_scan_indexFlag (root : Str) (es : List ZipEntry) :
    ∀ st : ScanState,
      (st.hasIndexHtml = true →
        ∃ f ∈ st.files, f.path = ("index.html").data) →
      ((es.foldl (scanStep root) st).hasIndexHtml = true →
        ∃ f ∈ (es.foldl (scanStep root) st).files,
          f.path = ("index.html").data) := by
  induction es with
  | nil => intro st h; exact h
  | cons e es ih => intro st h; exact ih _ (scanStep_indexFlag e h)

theorem mem_buildWarnings {st : ScanState} {pt : ProjectType} {x : Str}
    (h : x ∈ buildWarnings st pt) :
    x ∈ st.warnings ∨
      (st.hasIndexHtml = true ∧ ∃ r, x = missingAssetMsg r) ∨
      x = distBuildWarning ∨ x = srcCodeWarning ∨
      (∃ p, x = nestedIndexWarning p) ∨ x = noIndexWarning := by
  simp only [buildWarnings] at h
  have key1 : ∀ y : Str,
      y ∈ (if st.hasIndexHtml && st.indexHtmlContent != [] then
        missingAssetScan st.files st.indexHtmlContent st.warnings
        else st.warnings) →
      y ∈ st.warnings ∨
        (st.hasIndexHtml = true ∧ ∃ r, y = missingAssetMsg r) := by
    intro y hy
    split at hy
    · rename_i hcond
      rcases mem_missingAssetScan hy with h1 | h1
      · exact Or.inl h1
      · rw [Bool.and_eq_true] at hcond
        exact Or.inr ⟨hcond.1, h1⟩
    · exact Or.inl hy
  have key2 : ∀ y : Str,
      y ∈ (if st.hasPackageJson && !st.hasIndexHtml &&
          decide (pt = ProjectType.unknown) then
        if st.hasDistOrBuild then
          (if st.hasIndexHtml && st.indexHtmlContent != [] then
            missingAssetScan st.files st.indexHtmlContent st.warnings
            else st.warnings) ++ [distBuildWarning]
        else
          (if st.hasIndexHtml && st.indexHtmlContent != [] then
            missingAssetScan st.files st.indexHtmlContent st.warnings
            else st.warnings) ++ [srcCodeWarning]
        else
          (if st.hasIndexHtml && st.indexHtmlContent != [] then
            missingAssetScan st.files st.indexHtmlContent st.warnings
            else st.warnings)) →
      y ∈ st.warnings ∨
        (st.hasIndexHtml = true ∧ ∃ r, y = missingAssetMsg r) ∨
        y = distBuildWarning ∨ y = srcCodeWarning := by
    intro y hy
    split at hy
    · split at hy
      · rcases List.mem_append.mp hy with h1 | h1
        · rcases key1 y h1 with h2 | h2
          · exact Or.inl h2
          · exact Or.inr (Or.inl h2)
        · exact Or.inr (Or.inr (Or.inl (List.mem_singleton.mp h1)))
      · rcases List.mem_append.mp hy with h1 | h1
        · rcases key1 y h1 with h2 | h2
          · exact Or.inl h2
          · exact Or.inr (Or.inl h2)
        · exact Or.inr (Or.inr (Or.inr (List.mem_singleton.mp h1)))
    · rcases key1 y hy with h2 | h2
      · exact Or.inl h2
      · exact Or.inr (Or.inl h2)
  split at h
  · split at h
    · rcases List.mem_append.mp h with h1 | h1
      · rcases key2 x h1 with h2 | h2 | h2 | h2
        · exact Or.inl h2
        · exact Or.inr (Or.inl h2)
        · exact Or.inr (Or.inr (Or.inl h2))
        · exact Or.inr (Or.inr (Or.inr (Or.inl h2)))
      · exact Or.inr (Or.inr (Or.inr (Or.inr (Or.inl
          ⟨_, List.mem_singleton.mp h1⟩))))
    · rcases List.mem_append.mp h with h1 | h1
      · rcases key2 x h1 with h2 | h2 | h2 | h2
        · exact Or.inl h2
        · exact Or.inr (Or.inl h2)
        · exact Or.inr (Or.inr (Or.inl h2))
        · exact Or.inr (Or.inr (Or.inr (Or.inl h2)))
      · exact Or.inr (Or.inr (Or.inr (Or.inr (Or.inr
          (List.mem_singleton.mp h1)))))
  · rcases key2 x h with h2 | h2 | h2 | h2
    · exact Or.inl h2
    · exact Or.inr (Or.inl h2)
    · exact Or.inr (Or.inr (Or.inl h2))
    · exact Or.inr (Or.inr (Or.inr (Or.inl h2)))

theorem mem_missingAssetStep_iff {files : List ManifestFile} {ws : List Str}
    {ref x : Str} :
    x ∈ missingAssetStep files ws ref ↔ x ∈ ws ∨
      (skipRef ref = false ∧
        (files.any fun f => f.path == normalizeRef ref) = false ∧
        x = missingAssetMsg (normalizeRef ref)) := by
  unfold missingAssetStep
  split
  · rename_i hskip
    simp [hskip]
  · rename_i hskip
    split
    · rename_i hany
      simp [hany]
    · rename_i hany
      have hskip2 : skipRef ref = false := by simpa using hskip
      have hany2 : (files.any fun f => f.path == normalizeRef ref) = false := by
        simpa using hany
      rw [mem_pushUnique]
      simp [hskip2, hany2]

theorem mem_foldl_missingAssetStep_iff {files : List ManifestFile} {x : Str} :
    ∀ (refs : List Str) (ws : List Str),
      x ∈ refs.foldl (missingAssetStep files) ws ↔ x ∈ ws ∨
        ∃ ref ∈ refs, skipRef ref = false ∧
          (files.any fun f => f.path == normalizeRef ref) = false ∧
          x = missingAssetMsg (normalizeRef ref) := by
  intro refs
  induction refs with
  | nil => intro ws; simp
  | cons r rs ih =>
    intro ws
    rw [List.foldl_cons, ih, mem_missingAssetStep_iff]
    constructor
    · rintro ((hws | hr) | ⟨ref, hmem, hprop⟩)
      · exact Or.inl hws
      · exact Or.inr ⟨r, List.mem_cons_self r rs, hr⟩
      · exact Or.inr ⟨ref, List.mem_cons_of_mem _ hmem, hprop⟩
    · rintro (hws | ⟨ref, hmem, hprop⟩)
      · exact Or.inl (Or.inl hws)
      · rcases List.mem_cons.mp hmem with rfl | hmem2
        · exact Or.inl (Or.inr hprop)
        · exact Or.inr ⟨ref, hmem2, hprop⟩

theorem mem_missingAssetScan_iff {files : List ManifestFile} {content : Str}
    {ws : List Str} {x : Str} :
    x ∈ missingAssetScan files content ws ↔ x ∈ ws ∨
      ∃ ref ∈ refMatchAll content, skipRef ref = false ∧
        (files.any fun f => f.path == normalizeRef ref) = false ∧
        x = missingAssetMsg (normalizeRef ref) :=
  mem_foldl_missingAssetStep_iff _ _

/-- Claim C9: the missing-asset scan runs only when a root `index.html`
was captured (no kept root `index.html` means no missing-asset warning);
each extracted reference is skipped when absolute, protocol-relative,
fragment-only or root-absolute, is normalised by dropping query/fragment
suffixes and a leading `./`, and warns by name exactly when no manifest
file has the normalised path; concretely, a missing `css/app.css` is
warned about by name while `https://cdn.example/x.js` is not. -/
theorem missingAsset_claim :
    (∀ entries : List ZipEntry,
      (∀ f ∈ (analyzeZip entries).files, f.path ≠ ("index.html").data) →
      ∀ w ∈ (analyzeZip entries).warnings,
        ¬ (("Missing asset").data <+: w)) ∧
    (∀ (files : List ManifestFile) (content : Str) (ws : List Str) (x : Str),
      x ∈ missingAssetScan files content ws ↔ x ∈ ws ∨
        ∃ ref ∈ refMatchAll content, skipRef ref = false ∧
          (files.any fun f => f.path == normalizeRef ref) = false ∧
          x = missingAssetMsg (normalizeRef ref)) ∧
    normalizeRef (("./css/app.css?v=1#x").data) = ("css/app.css").data ∧
    (analyzeZip [⟨("index.html").data, false,
        ("href=\"css/app.css\" src=\"https://cdn.example/x.js\"").data⟩]).warnings
      = [missingAssetMsg (("css/app.css").data)] := by
  refine ⟨?_, fun files content ws x => mem_missingAssetScan_iff,
    by decide, by decide⟩
  intro entries hno w hw hpre
  simp only [analyzeZip] at hw hno
  obtain ⟨t, ht⟩ := hpre
  have hhead : w.head? = some 'M' := by
    rw [← ht]
    rfl
  have hidx : (List.foldl
      (scanStep (commonRoot (List.map (fun f => f.path)
        (List.filter (fun e => !e.dir &&
          !jsIncludes (("__MACOSX").data) e.path) entries))))
      initialScanState
      (List.filter (fun e => !e.dir &&
        !jsIncludes (("__MACOSX").data) e.path) entries)).hasIndexHtml
      = false := by
    cases hflag : (List.foldl
        (scanStep (commonRoot (List.map (fun f => f.path)
          (List.filter (fun e => !e.dir &&
            !jsIncludes (("__MACOSX").data) e.path) entries))))
        initialScanState
        (List.filter (fun e => !e.dir &&
          !jsIncludes (("__MACOSX").data) e.path) entries)).hasIndexHtml with
    | false => rfl
    | true =>
      obtain ⟨f, hm, hp⟩ := foldl_scan_indexFlag _ _ _
        (by intro hcontra; exact absurd hcontra (by decide)) hflag
      exact absurd hp (hno f hm)
  have hA := foldl_scan_warnings
    (commonRoot (List.map (fun f => f.path)
      (List.filter (fun e => !e.dir &&
        !jsIncludes (("__MACOSX").data) e.path) entries)))
    (List.filter (fun e => !e.dir &&
      !jsIncludes (("__MACOSX").data) e.path) entries)
    initialScanState (Or.inl rfl)
  rcases mem_buildWarnings hw with h1 | ⟨hidxT, r, rfl⟩ | rfl | rfl |
      ⟨p, rfl⟩ | rfl
  · have hwabs : w = absWarning := by
      rcases hA with h2 | h2 <;> rw [h2] at h1
      · cases h1
      · exact List.mem_singleton.mp h1
    rw [hwabs, absWarning_head] at hhead
    exact absurd hhead (by decide)
  · rw [hidx] at hidxT
    exact Bool.noConfusion hidxT
  · rw [distBuildWarning_head] at hhead
    exact absurd hhead (by decide)
  · rw [srcCodeWarning_head] at hhead
    exact absurd hhead (by decide)
  · rw [nestedIndexWarning_head] at hhead
    exact absurd hhead (by decide)
  · rw [noIndexWarning_head] at hhead
    exact absurd hhead (by decide)

/-- Witness for C9: an archive with no root `index.html` produces a
warning list whose sole element is not a missing-asset warning. -/
theorem missingAsset_claim_witness :
    ¬ (("Missing asset").data <+: noIndexWarning) :=
  missingAsset_claim.1 [⟨("style.css").data, false, []⟩] (by decide)
    noIndexWarning (by decide)

theorem fixScanFuel_not_modified :
    ∀ (fuel : Nat) (s : Str), s.length ≤ fuel →
      (fixScanFuel fuel s).1 = false → (fixScanFuel fuel s).2 = s := by
  intro fuel
  induction fuel with
  | zero =>
    intro s hlen _
    rw [List.eq_nil_of_length_eq_zero (Nat.le_zero.mp hlen)]
    rfl
  | succ fuel ih =>
    intro s hlen hmod
    cases s with
    | nil => rfl
    | cons c rest =>
      simp only [fixScanFuel] at hmod ⊢
      cases hm : tryFixMatch (c :: rest) with
      | some m =>
        rw [hm] at hmod
        exact Bool.noConfusion hmod
      | none =>
        rw [hm] at hmod
        have hmod2 : (fixScanFuel fuel rest).1 = false := hmod
        simp only [List.length_cons] at hlen
        show c :: (fixScanFuel fuel rest).2 = c :: rest
        rw [ih rest (by omega) hmod2]

theorem fixScan_not_modified {s : Str} (h : (fixScan s).1 = false) :
    (fixScan s).2 = s :=
  fixScanFuel_not_modified s.length s le_rfl h

theorem fixFile_id_of_clean {f : ManifestFile}
    (h : isFixableExt f.path = true → f.size ≤ 1024 * 1024 →
      (fixScan f.content).1 = false) :
    fixFile f = f := by
  unfold fixFile
  split
  · rfl
  · rename_i hext
    split
    · rfl
    · rename_i hsize
      have hext2 : isFixableExt f.path = true := by simpa using hext
      have hsize2 : f.size ≤ 1024 * 1024 := by
        simp only [decide_eq_true_eq] at hsize
        omega
      have hclean := h hext2 hsize2
      show (if (fixScan f.content).1 = true then
        (⟨f.path, (fixScan f.content).2.length, (fixScan f.content).2⟩ :
          ManifestFile) else f) = f
      rw [hclean]
      simp

/-- Claim C10 (amended): `fixAbsolutePaths` applied to its own output
changes nothing provided the once-fixed fixable files contain no further
match of the rewrite pattern; the unamended claim is false because a
rewrite can expose a new match that overlapped a first-pass match. -/
theorem fixAbsolutePaths_claim (a : ZipAnalysis)
    (h : ∀ f ∈ (fixAbsolutePaths a).files, isFixableExt f.path = true →
      f.size ≤ 1024 * 1024 → (fixScan f.content).1 = false) :
    fixAbsolutePaths (fixAbsolutePaths a) = fixAbsolutePaths a := by
  have hfiles : (fixAbsolutePaths a).files.map fixFile =
      (fixAbsolutePaths a).files := by
    have := List.map_congr_left
      (fun f hf => fixFile_id_of_clean (h f hf))
    rw [this]
    simp
  have hwarn : (fixAbsolutePaths a).warnings.filter (fun w =>
      !(jsIncludes (("Absolute paths detected").data) w)) =
      (fixAbsolutePaths a).warnings := by
    show (List.filter _ (a.warnings.filter _)) = _
    rw [List.filter_filter]
    simp only [Bool.and_self]
    rfl
  show { fixAbsolutePaths a with
    files := (fixAbsolutePaths a).files.map fixFile,
    warnings := (fixAbsolutePaths a).warnings.filter (fun w =>
      !(jsIncludes (("Absolute paths detected").data) w)) } = fixAbsolutePaths a
  rw [hfiles, hwarn]

/-- Counterexample for C10 as stated: for the analysis of a one-file
archive whose `a.html` contains `src="/a src='/b'`, the first application
rewrites the leftmost match to `src="./a src="` and thereby exposes a
second match `src="/b'` assembled from text that overlapped the first
match, so the second application changes the file again. -/
theorem fixAbsolutePaths_counterexample :
    fixAbsolutePaths (fixAbsolutePaths (analyzeZip
      [⟨("a.html").data, false, ("src=\"/a src='/b'").data⟩])) ≠
    fixAbsolutePaths (analyzeZip
      [⟨("a.html").data, false, ("src=\"/a src='/b'").data⟩]) := by
  decide

/-- Witness for the amended C10: on the analysis of an archive whose
`index.html` contains `src="/x"`, the rewritten content `src="./x"` has no
further match and the second application changes nothing. -/
theorem fixAbsolutePaths_claim_witness :
    fixAbsolutePaths (fixAbsolutePaths (analyzeZip
      [⟨("index.html").data, false, ("src=\"/x\"").data⟩])) =
    fixAbsolutePaths (analyzeZip
      [⟨("index.html").data, false, ("src=\"/x\"").data⟩]) :=
  fixAbsolutePaths_claim _ (by decide)

/-- A file prepared for upload in `deployZipToGitHub` step 3: raw bytes
plus the fixed git mode. -/
structure UploadFile where
  path : Str
  content : Bytes
  mode : Str
deriving DecidableEq

/-- Bytes of a string (`TextEncoder().encode` / `entry.async("uint8array")`
are both modelled as the code-point sequence). -/
def encodeBytes (s : Str) : Bytes := s.map Char.toNat

/-- The git blob mode used for every prepared file. -/
def fileMode : Str := ("100644").data

/-- Application of one patch to the prepared file list: replace the content
of the first file with the same path (`findIndex` + in-place content
assignment) or push the patch as a new file. -/
def overlayPatch : List UploadFile → AutoFixPatch → List UploadFile
  | [], p => [⟨p.path, encodeBytes p.content, fileMode⟩]
  | f :: fs, p =>
    if f.path == p.path then
      { f with content := encodeBytes p.content } :: fs
    else f :: overlayPatch fs p

/-- FilesPrepared phase of `deployZipToGitHub`: materialise the manifest
files as bytes, overlay the patches in order, then append a `CNAME`
marker when a custom domain was given (JavaScript truthiness: absent or
empty string means no marker). -/
def prepareFiles (files : List ManifestFile) (patches : List AutoFixPatch)
    (customDomain : Option Str) : List UploadFile :=
  let base := files.map fun f =>
    (⟨f.path, encodeBytes f.content, fileMode⟩ : UploadFile)
  let withPatches := patches.foldl overlayPatch base
  match customDomain with
  | some d =>
    if d != [] then
      withPatches ++ [⟨("CNAME").data, encodeBytes d, fileMode⟩]
    else withPatches
  | none => withPatches

/-- Content of the first prepared file at a path, if any. -/
def findContent (l : List UploadFile) (p : Str) : Option Bytes :=
  (l.find? fun f => f.path == p).map fun f => f.content

/-- Path list produced by overlaying a patch list onto a list of already
seen paths: paths already present are replaced in place, new ones are
appended in patch order. -/
def newPatchPaths : List AutoFixPatch → List Str → List Str
  | [], _ => []
  | q :: qs, seen =>
    if seen.contains q.path then newPatchPaths qs seen
    else q.path :: newPatchPaths qs (seen ++ [q.path])

theorem overlayPatch_paths (fs : List UploadFile) (p : AutoFixPatch) :
    (overlayPatch fs p).map (fun f => f.path) =
      if (fs.map fun f => f.path).contains p.path then fs.map fun f => f.path
      else (fs.map fun f => f.path) ++ [p.path] := by
  induction fs with
  | nil => simp [overlayPatch]
  | cons f fs ih =>
    simp only [overlayPatch]
    by_cases hfp : f.path == p.path
    · rw [if_pos hfp]
      have : (List.map (fun f => f.path) (f :: fs)).contains p.path = true := by
        simp only [List.map_cons, List.contains_cons]
        have : p.path == f.path := by
          simp only [beq_iff_eq] at hfp ⊢
          exact hfp.symm
        rw [this]
        simp
      rw [this]
      simp only [List.map_cons, if_true]
    · rw [if_neg (by simpa using hfp)]
      have hcont : (List.map (fun f => f.path) (f :: fs)).contains p.path =
          (List.map (fun f => f.path) fs).contains p.path := by
        simp only [List.map_cons, List.contains_cons]
        have : (p.path == f.path) = false := by
          simp only [beq_eq_false_iff_ne, ne_eq]
          intro h
          exact absurd (by simp [h] : (f.path == p.path) = true) (by simpa using hfp)
        rw [this]
        simp
      rw [List.map_cons, hcont, ih]
      by_cases hc : (List.map (fun f => f.path) fs).contains p.path
      · rw [if_pos hc, if_pos hc]
        simp
      · rw [if_neg hc, if_neg hc]
        simp

theorem foldl_overlay_paths (patches : List AutoFixPatch) :
    ∀ base : List UploadFile,
      (patches.foldl overlayPatch base).map (fun f => f.path) =
        (base.map fun f => f.path) ++
          newPatchPaths patches (base.map fun f => f.path) := by
  induction patches with
  | nil => intro base; simp [newPatchPaths]
  | cons q qs ih =>
    intro base
    rw [List.foldl_cons, ih, overlayPatch_paths]
    simp only [newPatchPaths]
    by_cases hc : (base.map fun f => f.path).contains q.path
    · rw [if_pos hc, if_pos hc]
    · rw [if_neg hc, if_neg hc]
      simp

theorem overlayPatch_find_self (fs : List UploadFile) (p : AutoFixPatch) :
    findContent (overlayPatch fs p) p.path = some (encodeBytes p.content) := by
  induction fs with
  | nil => simp [overlayPatch, findContent, List.find?]
  | cons f fs ih =>
    simp only [overlayPatch]
    by_cases hfp : f.path == p.path
    · rw [if_pos hfp]
      simp only [findContent, List.find?]
      rw [hfp]
      rfl
    · rw [if_neg (by simpa using hfp)]
      simp only [findContent, List.find?] at ih ⊢
      rw [Bool.not_eq_true] at hfp
      rw [hfp]
      exact ih

theorem overlayPatch_find_other (fs : List UploadFile) (p : AutoFixPatch)
    {pth : Str} (hne : p.path ≠ pth) :
    findContent (overlayPatch fs p) pth = findContent fs pth := by
  induction fs with
  | nil =>
    simp only [overlayPatch, findContent, List.find?]
    have : (p.path == pth) = false := by simpa using hne
    rw [this]
  | cons f fs ih =>
    simp only [overlayPatch]
    by_cases hfp : f.path == p.path
    · rw [if_pos hfp]
      simp only [findContent, List.find?]
      have hfpth : (f.path == pth) = false := by
        have h1 : f.path = p.path := by simpa using hfp
        simpa [h1] using hne
      rw [hfpth]
    · rw [if_neg (by simpa using hfp)]
      simp only [findContent, List.find?] at ih ⊢
      cases hm : f.path == pth with
      | true => rfl
      | false => exact ih

theorem foldl_overlay_find_other (qs : List AutoFixPatch) {pth : Str}
    (hqs : ∀ q ∈ qs, q.path ≠ pth) :
    ∀ base : List UploadFile,
      findContent (qs.foldl overlayPatch base) pth = findContent base pth := by
  induction qs with
  | nil => intro base; rfl
  | cons q qs ih =>
    intro base
    rw [List.foldl_cons,
      ih (fun r hr => hqs r (List.mem_cons_of_mem q hr)),
      overlayPatch_find_other _ _ (hqs q (List.mem_cons_self q qs))]

theorem findContent_append {l l2 : List UploadFile} {pth : Str} {b : Bytes}
    (h : findContent l pth = some b) : findContent (l ++ l2) pth = some b := by
  induction l with
  | nil => exact Option.noConfusion h
  | cons f fs ih =>
    simp only [findContent, List.find?, List.cons_append] at h ⊢
    cases hm : f.path == pth with
    | true => rw [hm] at h; exact h
    | false => rw [hm] at h; exact ih h

theorem findContent_append_single_other {l : List UploadFile}
    {x : UploadFile} {pth : Str} (hne : x.path ≠ pth) :
    findContent (l ++ [x]) pth = findContent l pth := by
  induction l with
  | nil =>
    simp only [findContent, List.nil_append, List.find?]
    have : (x.path == pth) = false := by simpa using hne
    rw [this]
  | cons f fs ih =>
    simp only [findContent, List.find?, List.cons_append] at ih ⊢
    cases hm : f.path == pth with
    | true => rfl
    | false => exact ih

theorem foldl_overlay_find_patch (patches : List AutoFixPatch)
    (hp : (patches.map fun q => q.path).Nodup) :
    ∀ base : List UploadFile, ∀ q ∈ patches,
      findContent (patches.foldl overlayPatch base) q.path =
        some (encodeBytes q.content) := by
  induction patches with
  | nil => intro base q hq; cases hq
  | cons r rs ih =>
    intro base q hq
    rw [List.map_cons, List.nodup_cons] at hp
    rcases List.mem_cons.mp hq with rfl | hq2
    · rw [List.foldl_cons,
        foldl_overlay_find_other rs
          (fun r2 hr2 he => hp.1 (by
            rw [← he]
            exact List.mem_map_of_mem _ hr2)) _]
      exact overlayPatch_find_self base q
    · exact ih hp.2 _ q hq2

/-- Claim C3: in the prepared upload set, every patch wins over a manifest
file with the same path (the first prepared file at the patch path carries
the patch bytes, replacing the manifest file in place) or is appended as a
new file when no manifest file has that path (the prepared path list is
the manifest path list with new patch paths appended); paths hit by no
patch keep the manifest bytes; and the custom-domain `CNAME` marker is
appended after the overlay when a nonempty custom domain is given. -/
theorem prepareFiles_claim (files : List ManifestFile)
    (patches : List AutoFixPatch) (cd : Option Str)
    (hp : (patches.map fun q => q.path).Nodup) :
    (∀ q ∈ patches,
      findContent (prepareFiles files patches cd) q.path =
        some (encodeBytes q.content)) ∧
    ((patches.foldl overlayPatch (files.map fun f =>
        (⟨f.path, encodeBytes f.content, fileMode⟩ : UploadFile))).map
      (fun f => f.path) = (files.map fun f => f.path) ++
        newPatchPaths patches (files.map fun f => f.path)) ∧
    (∀ pth : Str, (∀ q ∈ patches, q.path ≠ pth) → pth ≠ ("CNAME").data →
      findContent (prepareFiles files patches cd) pth =
        findContent (files.map fun f =>
          (⟨f.path, encodeBytes f.content, fileMode⟩ : UploadFile)) pth) ∧
    (∀ d : Str, d ≠ [] →
      prepareFiles files patches (some d) =
        patches.foldl overlayPatch (files.map fun f =>
          (⟨f.path, encodeBytes f.content, fileMode⟩ : UploadFile)) ++
          [⟨("CNAME").data, encodeBytes d, fileMode⟩]) := by
  refine ⟨?_, ?_, ?_, ?_⟩
  · intro q hq
    have hbase := foldl_overlay_find_patch patches hp
      (files.map fun f => (⟨f.path, encodeBytes f.content, fileMode⟩ :
        UploadFile)) q hq
    simp only [prepareFiles]
    cases cd with
    | none => exact hbase
    | some d =>
      show findContent (if (d != []) = true then
          patches.foldl overlayPatch (files.map fun f =>
            (⟨f.path, encodeBytes f.content, fileMode⟩ : UploadFile)) ++
            [⟨("CNAME").data, encodeBytes d, fileMode⟩]
        else patches.foldl overlayPatch (files.map fun f =>
            (⟨f.path, encodeBytes f.content, fileMode⟩ : UploadFile)))
        q.path = some (encodeBytes q.content)
      by_cases hde : (d != []) = true
      · rw [if_pos hde]
        exact findContent_append hbase
      · rw [if_neg hde]
        exact hbase
  · have hpm : (files.map fun f =>
        (⟨f.path, encodeBytes f.content, fileMode⟩ : UploadFile)).map
        (fun f => f.path) = files.map fun f => f.path := by
      rw [List.map_map]
      rfl
    rw [foldl_overlay_paths, hpm]
  · intro pth hq hcname
    have hbase := foldl_overlay_find_other patches hq
      (files.map fun f => (⟨f.path, encodeBytes f.content, fileMode⟩ :
        UploadFile))
    simp only [prepareFiles]
    cases cd with
    | none => exact hbase
    | some d =>
      show findContent (if (d != []) = true then
          patches.foldl overlayPatch (files.map fun f =>
            (⟨f.path, encodeBytes f.content, fileMode⟩ : UploadFile)) ++
            [⟨("CNAME").data, encodeBytes d, fileMode⟩]
        else patches.foldl overlayPatch (files.map fun f =>
            (⟨f.path, encodeBytes f.content, fileMode⟩ : UploadFile)))
        pth = findContent (files.map fun f =>
          (⟨f.path, encodeBytes f.content, fileMode⟩ : UploadFile)) pth
      by_cases hde : (d != []) = true
      · rw [if_pos hde,
          findContent_append_single_other (fun h => hcname h.symm)]
        exact hbase
      · rw [if_neg hde]
        exact hbase
  · intro d hd
    simp only [prepareFiles]
    rw [if_pos (by simpa using hd)]

/-- Witness for C3: a patch overriding `index.html` and a patch adding a
new workflow file, with a custom domain, on a two-file manifest. -/
theorem prepareFiles_claim_witness :
    findContent (prepareFiles
      [⟨("index.html").data, 2, ("ab").data⟩, ⟨("app.js").data, 1, ("x").data⟩]
      [⟨("index.html").data, ("new").data, ("d1").data⟩,
        ⟨("deploy.yml").data, ("wf").data, ("d2").data⟩]
      (some (("example.com").data)))
      (("index.html").data) = some (encodeBytes (("new").data)) ∧
    findContent (prepareFiles
      [⟨("index.html").data, 2, ("ab").data⟩, ⟨("app.js").data, 1, ("x").data⟩]
      [⟨("index.html").data, ("new").data, ("d1").data⟩,
        ⟨("deploy.yml").data, ("wf").data, ("d2").data⟩]
      (some (("example.com").data)))
      (("app.js").data) = some (encodeBytes (("x").data)) := by
  constructor
  · exact (prepareFiles_claim
      [⟨("index.html").data, 2, ("ab").data⟩, ⟨("app.js").data, 1, ("x").data⟩]
      [⟨("index.html").data, ("new").data, ("d1").data⟩,
        ⟨("deploy.yml").data, ("wf").data, ("d2").data⟩]
      (some (("example.com").data)) (by decide)).1
      ⟨("index.html").data, ("new").data, ("d1").data⟩ (by decide)
  · rw [(prepareFiles_claim
      [⟨("index.html").data, 2, ("ab").data⟩, ⟨("app.js").data, 1, ("x").data⟩]
      [⟨("index.html").data, ("new").data, ("d1").data⟩,
        ⟨("deploy.yml").data, ("wf").data, ("d2").data⟩]
      (some (("example.com").data)) (by decide)).2.2.1
      (("app.js").data) (by decide) (by decide)]
    decide

/-- Error value carried by a rejected GitHub API call (the Octokit error
object: optional HTTP status and message). -/
structure GHErr where
  status : Option Nat
  message : Str
deriving DecidableEq

/-- The `type` field of a `DeployStatus` event. -/
inductive EventType where
  | info
  | success
  | error
deriving DecidableEq

/-- A deployment status event as delivered to the `onStatus` sink. -/
structure DeployStatus where
  step : Str
  details : Option Str
  type : EventType
  progress : Option Nat
deriving DecidableEq

/-- A deployment computation: the ordered event trace delivered to the
sink so far, together with the outcome. -/
abbrev Run (ε : Type) (α : Type) := List DeployStatus × Except ε α

/-- Pure result, no events. -/
def runPure {ε α : Type} (a : α) : Run ε α := ([], Except.ok a)

/-- Deliver one event to the sink. -/
def runEmit {ε : Type} (e : DeployStatus) : Run ε Unit := ([e], Except.ok ())

/-- Await an API call: its result, no events. -/
def runOf {ε α : Type} (x : Except ε α) : Run ε α := ([], x)

/-- Sequencing: an exception skips the continuation, events accumulate. -/
def runBind {ε α β : Type} (a : Run ε α) (f : α → Run ε β) : Run ε β :=
  match a.2 with
  | Except.error e => (a.1, Except.error e)
  | Except.ok x => (a.1 ++ (f x).1, (f x).2)

/-- An inner `try`/`catch` block. -/
def runCatch {ε α : Type} (a : Run ε α) (h : ε → Run ε α) : Run ε α :=
  match a.2 with
  | Except.ok x => (a.1, Except.ok x)
  | Except.error e => (a.1 ++ (h e).1, (h e).2)

/-- An event of kind `info` with only a step text. -/
def infoEv (step : Str) : DeployStatus := ⟨step, none, EventType.info, none⟩

/-- An event of kind `success` with only a step text. -/
def successEv (step : Str) : DeployStatus :=
  ⟨step, none, EventType.success, none⟩

/-- Decimal rendering of a number interpolated into a template string. -/
def natToStr (n : Nat) : Str := (toString n).data

/-- Response of the repository create / get calls. -/
structure RepoInfo where
  defaultBranch : Str
deriving DecidableEq

/-- Response of the Pages create / get calls. -/
structure PagesInfo where
  htmlUrl : Option Str
deriving DecidableEq

/-- Oracle fixing the outcome of every GitHub API call performed by
`deployZipToGitHub`; `createBlob` is indexed by the file position in the
upload list and by the retry attempt number. -/
structure GitHubApi where
  authUser : Except GHErr Str
  createRepo : Except GHErr RepoInfo
  getRepo : Except GHErr RepoInfo
  getRef : Except GHErr Str
  getCommit : Except GHErr Str
  createBlob : Nat → Nat → Except GHErr Str
  createTree : Except GHErr Str
  createCommit : Except GHErr Str
  updateRef : Except GHErr Unit
  createPagesSite : Except GHErr PagesInfo
  getPages : Except GHErr PagesInfo

/-- The retry loop around one blob upload: `retries = 3`, one attempt per
round, rethrowing the last error when the counter reaches zero (the fixed
inter-retry delay has no observable effect on the event trace). -/
def tryUpload (call : Nat → Except GHErr Str) :
    Nat → Nat → Except GHErr Str
  | _, 0 => Except.error ⟨none, ("unreachable").data⟩
  | attempt, retries + 1 =>
    match call attempt with
    | Except.ok sha => Except.ok sha
    | Except.error e =>
      if retries = 0 then Except.error e
      else tryUpload call (attempt + 1) retries

/-- One entry of the tree built from the uploaded blobs. -/
structure TreeItem where
  path : Str
  mode : Str
  sha : Str
deriving DecidableEq

/-- Upload the files of one batch (the `Promise.all` over a batch: on the
trace level a failed upload rejects the whole batch). -/
def processBatch (api : GitHubApi) :
    List (Nat × UploadFile) → Except GHErr (List TreeItem)
  | [] => Except.ok []
  | (i, f) :: rest =>
    match tryUpload (api.createBlob i) 0 3 with
    | Except.error e => Except.error e
    | Except.ok sha =>
      match processBatch api rest with
      | Except.error e => Except.error e
      | Except.ok items => Except.ok (⟨f.path, f.mode, sha⟩ :: items)

/-- The per-batch progress value
`Math.round((min(i + 5, total) / total) * 100)`. -/
def progressOf (k total : Nat) : Nat := (200 * k + total) / (2 * total)

/-- The per-batch progress event. -/
def progressEv (k total : Nat) : DeployStatus :=
  ⟨("Uploaded ").data ++ natToStr k ++ '/' :: natToStr total ++
    (" files...").data, none, EventType.info, some (progressOf k total)⟩

/-- The batched blob upload loop (`BATCH_SIZE = 5`, batches strictly
sequential, one progress event after each completed batch); the fuel only
serves structural termination and is at least the list length at every
call. -/
def uploadLoopFuel (api : GitHubApi) (total : Nat) :
    Nat → Nat → List (Nat × UploadFile) → Run GHErr (List TreeItem)
  | 0, _, _ => runPure []
  | _ + 1, _, [] => runPure []
  | fuel + 1, uploaded, f :: rest =>
    match processBatch api (f :: rest.take 4) with
    | Except.error e => ([], Except.error e)
    | Except.ok items =>
      runBind (runEmit (progressEv (uploaded + (f :: rest.take 4).length)
        total)) fun _ =>
      runBind (uploadLoopFuel api total fuel
        (uploaded + (f :: rest.take 4).length) (rest.drop 4)) fun more =>
      runPure (items ++ more)

/-- Step 5 of `deployZipToGitHub`: upload all prepared files in batches. -/
def uploadBlobs (api : GitHubApi) (files : List UploadFile) :
    Run GHErr (List TreeItem) :=
  uploadLoopFuel api files.length files.length 0 files.enum

/-- Default Pages URL `https://owner.github.io/repoName/`. -/
def defaultPagesUrl (owner repoName : Str) : Str :=
  ("https://").data ++ owner ++ (".github.io/").data ++ repoName ++ ['/']

/-- JavaScript `pages.html_url || pagesUrl`. -/
def pagesUrlOr (owner repoName : Str) (u : Option Str) : Str :=
  match u with
  | some s => if s != [] then s else defaultPagesUrl owner repoName
  | none => defaultPagesUrl owner repoName

/-- The body of the outer `try` of `deployZipToGitHub`: authenticate,
create or fetch the repository (422 conflict falls back to a read), emit
the file-preparation events and prepare the upload set, read the previous
ref and commit (any failure starts fresh), upload the blobs in batches
with retry, create tree, commit, force-update the ref, and enable Pages
(409 conflict is success; any other failure is logged and swallowed). -/
def runGitHubPhases (api : GitHubApi) (repoName : Str)
    (analysis : ZipAnalysis) (customDomain : Option Str)
    (patches : List AutoFixPatch) : Run GHErr Str :=
  runBind (runEmit (infoEv (("Authenticating...").data))) fun _ =>
  runBind (runOf api.authUser) fun owner =>
  runBind (runEmit (successEv ((("Authenticated as ").data) ++ owner)))
    fun _ =>
  runBind (runEmit (infoEv ((("Setting up repository \"").data) ++ repoName
    ++ (("\"...").data)))) fun _ =>
  runBind (runCatch
    (runBind (runOf api.createRepo) fun repo =>
      runBind (runEmit (successEv (("Repository created successfully.").data)))
        fun _ =>
      runPure repo.defaultBranch)
    (fun e =>
      if e.status == some 422 then
        runBind (runEmit (infoEv ((("Repository \"").data) ++ repoName ++
          (("\" already exists. Fetching details...").data)))) fun _ =>
        runBind (runOf api.getRepo) fun repo => runPure repo.defaultBranch
      else ([], Except.error e))) fun _defaultBranch =>
  runBind (runEmit (infoEv (("Preparing files from analysis...").data)))
    fun _ =>
  runBind (if patches.length > 0 then
      runEmit (infoEv ((("Applying ").data) ++ natToStr patches.length ++
        ((" auto-fixes...").data)))
    else runPure ()) fun _ =>
  runBind (match customDomain with
    | some d =>
      if d != [] then
        runEmit (infoEv ((("Adding CNAME for ").data) ++ d ++ (("...").data)))
      else runPure ()
    | none => runPure ()) fun _ =>
  runBind (runPure (prepareFiles analysis.files patches customDomain))
    fun filesToUpload =>
  runBind (runEmit (infoEv ((("Prepared ").data) ++
    natToStr filesToUpload.length ++ ((" files for upload.").data)))) fun _ =>
  runBind (runCatch
    (runBind (runOf api.getRef) fun sha =>
      runBind (runOf api.getCommit) fun treeSha => runPure (sha, treeSha))
    (fun _ =>
      runBind (runEmit (infoEv
        (("No existing commit found. Starting fresh...").data))) fun _ =>
      runPure ([], []))) fun _shas =>
  runBind (runEmit (infoEv (("Uploading files...").data))) fun _ =>
  runBind (uploadBlobs api filesToUpload) fun _treeItems =>
  runBind (runEmit (infoEv (("Creating file tree...").data))) fun _ =>
  runBind (runOf api.createTree) fun _treeSha =>
  runBind (runEmit (infoEv (("Creating commit...").data))) fun _ =>
  runBind (runOf api.createCommit) fun _commitSha =>
  runBind (runEmit (infoEv (("Updating repository reference...").data)))
    fun _ =>
  runBind (runOf api.updateRef) fun _ =>
  runBind (runEmit (infoEv (("Enabling GitHub Pages...").data))) fun _ =>
  runBind (runCatch
    (runBind (runOf api.createPagesSite) fun pages =>
      runBind (runEmit (successEv
        (("GitHub Pages enabled successfully!").data))) fun _ =>
      runPure (pagesUrlOr owner repoName pages.htmlUrl))
    (fun e =>
      if e.status == some 409 then
        runBind (runEmit (infoEv (("GitHub Pages already enabled.").data)))
          fun _ =>
        runCatch
          (runBind (runOf api.getPages) fun pages =>
            runPure (pagesUrlOr owner repoName pages.htmlUrl))
          (fun _ => runPure (defaultPagesUrl owner repoName))
      else
        runBind (runEmit (infoEv
          (("Could not auto-enable Pages (Check Settings manually).").data)))
          fun _ =>
        runPure (defaultPagesUrl owner repoName))) fun pagesUrl =>
  runBind (runEmit ⟨("Deployment complete!").data, some pagesUrl,
    EventType.success, none⟩) fun _ =>
  runPure pagesUrl

/-- The terminal event emitted by the outer `catch` of
`deployZipToGitHub`. -/
def ghErrorEvent (e : GHErr) : DeployStatus :=
  ⟨("Deployment failed").data,
    some (if e.message != [] then e.message
      else ("Unknown error occurred").data),
    EventType.error, none⟩

/-- The outer `catch`: on failure emit the terminal error event and
rethrow. -/
def finishDeploy {ε : Type} (mkErr : ε → DeployStatus) (r : Run ε Str) :
    Run ε Str :=
  match r.2 with
  | Except.ok u => (r.1, Except.ok u)
  | Except.error e => (r.1 ++ [mkErr e], Except.error e)

/-- Shallow embedding of `deployZipToGitHub` against the API oracle. -/
def deployZipToGitHub (api : GitHubApi) (repoName : Str)
    (analysis : ZipAnalysis) (customDomain : Option Str)
    (patches : List AutoFixPatch) : Run GHErr Str :=
  finishDeploy ghErrorEvent
    (runGitHubPhases api repoName analysis customDomain patches)

/-- A parsed `fetch` response as observed by `deployZipToFirebase`:
`ok` flag, the parsed error body message (if any), the status text, and
the `name` field of a successful JSON body. -/
structure FetchResp where
  ok : Bool
  errMsg : Option Str
  statusText : Str
  name : Str
deriving DecidableEq

/-- The `populateFiles` response with its `uploadRequiredHashes` list (the
per-hash upload URLs are modelled by keying the upload call on the
hash). -/
structure PopulateResp where
  ok : Bool
  errMsg : Option Str
  statusText : Str
  uploadRequiredHashes : List Str
deriving DecidableEq

/-- Oracle fixing the outcome of every Firebase Hosting call; a rejected
`fetch` is an `Except.error` carrying the rejection message. -/
structure FirebaseApi where
  createVersion : Except Str FetchResp
  populateFiles : Except Str PopulateResp
  uploadFile : Str → Except Str FetchResp
  finalizeVersion : Except Str FetchResp
  release : Except Str FetchResp
  hashOf : Bytes → Str

/-- JavaScript `err.error?.message || res.statusText`. -/
def fetchErrText (errMsg : Option Str) (statusText : Str) : Str :=
  match errMsg with
  | some m => if m != [] then m else statusText
  | none => statusText

/-- JavaScript `versionName.split("/").pop()`. -/
def lastSegment (s : Str) : Str :=
  (s.reverse.takeWhile (fun c => c != '/')).reverse

/-- Firebase path cleanup: strip one leading slash. -/
def stripLeadingSlash (p : Str) : Str :=
  if jsStartsWith p (("/").data) then p.drop 1 else p

/-- The default URL `https://siteId.web.app`. -/
def fbUrl (siteId : Str) : Str :=
  ("https://").data ++ siteId ++ ((".web.app").data)

/-- Upload the required files of one batch; a non-OK response throws
`Failed to upload file with hash <hash>`. -/
def fbProcessBatch (api : FirebaseApi) : List Str → Except Str Unit
  | [] => Except.ok ()
  | h :: rest =>
    match api.uploadFile h with
    | Except.error e => Except.error e
    | Except.ok resp =>
      if resp.ok then fbProcessBatch api rest
      else Except.error ((("Failed to upload file with hash ").data) ++ h)

/-- The batched required-file upload loop of `deployZipToFirebase`
(batches of 5, one progress event per batch); the fuel only serves
structural termination. -/
def fbUploadLoopFuel (api : FirebaseApi) (total : Nat) :
    Nat → Nat → List Str → Run Str Unit
  | 0, _, _ => runPure ()
  | _ + 1, _, [] => runPure ()
  | fuel + 1, uploaded, h :: rest =>
    match fbProcessBatch api (h :: rest.take 4) with
    | Except.error e => ([], Except.error e)
    | Except.ok _ =>
      runBind (runEmit (progressEv (uploaded + (h :: rest.take 4).length)
        total)) fun _ =>
      fbUploadLoopFuel api total fuel (uploaded + (h :: rest.take 4).length)
        (rest.drop 4)

/-- The body of the outer `try` of `deployZipToFirebase`: create a
version, compute the content hashes, register the file map, upload the
hashes the backend reports missing (or note full deduplication), finalize
the version, then release it. -/
def runFirebasePhases (api : FirebaseApi) (siteId : Str)
    (analysis : ZipAnalysis) : Run Str Str :=
  runBind (runEmit (infoEv (("Creating new version...").data))) fun _ =>
  runBind (runOf api.createVersion) fun vres =>
  runBind (if vres.ok then runPure () else
    ([], Except.error ((("Failed to create version: ").data) ++
      fetchErrText vres.errMsg vres.statusText))) fun _ =>
  runBind (runEmit (successEv ((("Version created: ").data) ++
    lastSegment vres.name))) fun _ =>
  runBind (runEmit (infoEv (("Calculating file hashes...").data))) fun _ =>
  runBind (runPure (analysis.files.map fun f =>
    (stripLeadingSlash f.path, api.hashOf (encodeBytes f.content))))
    fun _filesByPath =>
  runBind (runEmit (infoEv (("Registering files...").data))) fun _ =>
  runBind (runOf api.populateFiles) fun pres =>
  runBind (if pres.ok then runPure () else
    ([], Except.error ((("Failed to populate files: ").data) ++
      fetchErrText pres.errMsg pres.statusText))) fun _ =>
  runBind (if pres.uploadRequiredHashes.length > 0 then
      runBind (runEmit (infoEv ((("Uploading ").data) ++
        natToStr pres.uploadRequiredHashes.length ++
        ((" new files...").data)))) fun _ =>
      fbUploadLoopFuel api pres.uploadRequiredHashes.length
        pres.uploadRequiredHashes.length 0 pres.uploadRequiredHashes
    else
      runEmit (infoEv (("All files already exist on Firebase.").data)))
    fun _ =>
  runBind (runEmit (infoEv (("Finalizing version...").data))) fun _ =>
  runBind (runOf api.finalizeVersion) fun fres =>
  runBind (if fres.ok then runPure () else
    ([], Except.error ((("Failed to finalize version: ").data) ++
      fetchErrText fres.errMsg fres.statusText))) fun _ =>
  runBind (runEmit (infoEv (("Releasing to live...").data))) fun _ =>
  runBind (runOf api.release) fun rres =>
  runBind (if rres.ok then runPure () else
    ([], Except.error ((("Failed to release: ").data) ++
      fetchErrText rres.errMsg rres.statusText))) fun _ =>
  runBind (runEmit ⟨("Deployment complete!").data, some (fbUrl siteId),
    EventType.success, none⟩) fun _ =>
  runPure (fbUrl siteId)

/-- The terminal error event of `deployZipToFirebase`. -/
def fbErrorEvent (e : Str) : DeployStatus :=
  ⟨("Deployment failed").data,
    some (if e != [] then e else ("Unknown error occurred").data),
    EventType.error, none⟩

/-- Shallow embedding of `deployZipToFirebase` against the API oracle. -/
def deployZipToFirebase (api : FirebaseApi) (siteId : Str)
    (analysis : ZipAnalysis) : Run Str Str :=
  finishDeploy fbErrorEvent (runFirebasePhases api siteId analysis)

/-- No event of a trace has kind `error`. -/
def NoErrEvents (l : List DeployStatus) : Prop :=
  ∀ ev ∈ l, ev.type ≠ EventType.error

/-- How many events of a trace have kind `error`. -/
def countErrors (l : List DeployStatus) : Nat :=
  l.countP (fun ev => ev.type == EventType.error)

/-- An event of `runBind a f`'s trace comes from `a` or from a
continuation. -/
theorem mem_runBind {ε α β : Type} {a : Run ε α} {f : α → Run ε β}
    {ev : DeployStatus} (hm : ev ∈ (runBind a f).1) :
    ev ∈ a.1 ∨ ∃ x, ev ∈ (f x).1 := by
  cases ha : a.2 with
  | error e =>
    simp only [runBind, ha] at hm
    exact Or.inl hm
  | ok x =>
    simp only [runBind, ha, List.mem_append] at hm
    rcases hm with h | h
    · exact Or.inl h
    · exact Or.inr ⟨x, h⟩

/-- An event of `runCatch a h`'s trace comes from `a` or from the
handler. -/
theorem mem_runCatch {ε α : Type} {a : Run ε α} {h : ε → Run ε α}
    {ev : DeployStatus} (hm : ev ∈ (runCatch a h).1) :
    ev ∈ a.1 ∨ ∃ e, ev ∈ (h e).1 := by
  cases ha : a.2 with
  | ok x =>
    simp only [runCatch, ha] at hm
    exact Or.inl hm
  | error e =>
    simp only [runCatch, ha, List.mem_append] at hm
    rcases hm with h1 | h1
    · exact Or.inl h1
    · exact Or.inr ⟨e, h1⟩

/-- The empty trace has no error event. -/
theorem noErr_nil : NoErrEvents ([] : List DeployStatus) := by
  intro ev hm
  exact absurd hm (List.not_mem_nil ev)

/-- A run whose trace is literally empty emits no error event. -/
theorem noErr_nil_trace {ε α : Type} (x : Except ε α) :
    NoErrEvents (([], x) : Run ε α).1 := noErr_nil

/-- Emitting one event whose kind is not `error` emits no error event. -/
theorem noErr_emitEv {ε : Type} (st : Str) (d : Option Str) (t : EventType)
    (p : Option Nat) (h : t ≠ EventType.error) :
    NoErrEvents ((runEmit (⟨st, d, t, p⟩ : DeployStatus) : Run ε Unit)).1 := by
  intro ev hm
  have he : ev = ⟨st, d, t, p⟩ := List.mem_singleton.mp hm
  subst he
  exact h

/-- Sequencing preserves the absence of error events. -/
theorem noErr_runBind {ε α β : Type} {a : Run ε α} {f : α → Run ε β}
    (ha : NoErrEvents a.1) (hf : ∀ x, NoErrEvents (f x).1) :
    NoErrEvents (runBind a f).1 := by
  intro ev hm
  rcases mem_runBind hm with h | ⟨x, h⟩
  · exact ha ev h
  · exact hf x ev h

/-- An inner catch preserves the absence of error events. -/
theorem noErr_runCatch {ε α : Type} {a : Run ε α} {h : ε → Run ε α}
    (ha : NoErrEvents a.1) (hh : ∀ e, NoErrEvents (h e).1) :
    NoErrEvents (runCatch a h).1 := by
  intro ev hm
  rcases mem_runCatch hm with h1 | ⟨e, h1⟩
  · exact ha ev h1
  · exact hh e ev h1

/-- The blob upload loop emits only progress (`info`) events. -/
theorem uploadLoopFuel_noErr (api : GitHubApi) (total fuel : Nat) :
    ∀ (uploaded : Nat) (l : List (Nat × UploadFile)),
    NoErrEvents (uploadLoopFuel api total fuel uploaded l).1 := by
  induction fuel with
  | zero =>
    intro uploaded l
    exact noErr_nil_trace _
  | succ n ih =>
    intro uploaded l
    cases l with
    | nil => exact noErr_nil_trace _
    | cons f rest =>
      cases hp : processBatch api (f :: rest.take 4) with
      | error e =>
        show NoErrEvents (uploadLoopFuel api total (n + 1) uploaded
          (f :: rest)).1
        simp only [uploadLoopFuel, hp]
        exact noErr_nil
      | ok items =>
        show NoErrEvents (uploadLoopFuel api total (n + 1) uploaded
          (f :: rest)).1
        simp only [uploadLoopFuel, hp]
        apply noErr_runBind
        · exact noErr_emitEv _ _ _ _ (fun h => EventType.noConfusion h)
        · intro x
          apply noErr_runBind
          · exact ih _ _
          · intro y
            exact noErr_nil_trace _

/-- The Firebase upload loop emits only progress (`info`) events. -/
theorem fbUploadLoopFuel_noErr (api : FirebaseApi) (total fuel : Nat) :
    ∀ (uploaded : Nat) (l : List Str),
    NoErrEvents (fbUploadLoopFuel api total fuel uploaded l).1 := by
  induction fuel with
  | zero =>
    intro uploaded l
    exact noErr_nil_trace _
  | succ n ih =>
    intro uploaded l
    cases l with
    | nil => exact noErr_nil_trace _
    | cons h rest =>
      cases hp : fbProcessBatch api (h :: rest.take 4) with
      | error e =>
        show NoErrEvents (fbUploadLoopFuel api total (n + 1) uploaded
          (h :: rest)).1
        simp only [fbUploadLoopFuel, hp]
        exact noErr_nil
      | ok u =>
        show NoErrEvents (fbUploadLoopFuel api total (n + 1) uploaded
          (h :: rest)).1
        simp only [fbUploadLoopFuel, hp]
        apply noErr_runBind
        · exact noErr_emitEv _ _ _ _ (fun hc => EventType.noConfusion hc)
        · intro x
          exact ih _ _

/-- Either branch of a conditional emits no error event when both do. -/
theorem noErr_ite {ε α : Type} (c : Prop) [inst : Decidable c]
    (x y : Run ε α) (hx : NoErrEvents x.1) (hy : NoErrEvents y.1) :
    NoErrEvents (if c then x else y).1 := by
  split
  · exact hx
  · exact hy

/-- Emitting one `info` event emits no error event. -/
theorem noErr_emitInfo {ε : Type} (s : Str) :
    NoErrEvents ((runEmit (infoEv s) : Run ε Unit)).1 :=
  noErr_emitEv s none EventType.info none (fun h => EventType.noConfusion h)

/-- Emitting one `success` event emits no error event. -/
theorem noErr_emitSuccess {ε : Type} (s : Str) :
    NoErrEvents ((runEmit (successEv s) : Run ε Unit)).1 :=
  noErr_emitEv s none EventType.success none (fun h => EventType.noConfusion h)

/-- Whole blob upload phase emits no error event. -/
theorem uploadBlobs_noErr (api : GitHubApi) (files : List UploadFile) :
    NoErrEvents (uploadBlobs api files).1 :=
  uploadLoopFuel_noErr api files.length files.length 0 files.enum

/-- The body of `deployZipToGitHub`'s outer try emits no error event:
every event it delivers is `info` or `success`. -/
theorem runGitHubPhases_noErr (api : GitHubApi) (repoName : Str)
    (a : ZipAnalysis) (cd : Option Str) (patches : List AutoFixPatch) :
    NoErrEvents (runGitHubPhases api repoName a cd patches).1 := by
  unfold runGitHubPhases
  refine noErr_runBind (noErr_emitInfo _) fun _ => ?_
  refine noErr_runBind (noErr_nil_trace _) fun owner => ?_
  refine noErr_runBind (noErr_emitSuccess _) fun _ => ?_
  refine noErr_runBind (noErr_emitInfo _) fun _ => ?_
  refine noErr_runBind (noErr_runCatch ?_ fun e => ?_) fun _ => ?_
  · refine noErr_runBind (noErr_nil_trace _) fun repo => ?_
    refine noErr_runBind (noErr_emitSuccess _) fun _ => ?_
    exact noErr_nil_trace _
  · refine noErr_ite _ _ _ ?_ (noErr_nil_trace _)
    refine noErr_runBind (noErr_emitInfo _) fun _ => ?_
    refine noErr_runBind (noErr_nil_trace _) fun repo => ?_
    exact noErr_nil_trace _
  refine noErr_runBind (noErr_emitInfo _) fun _ => ?_
  refine noErr_runBind ?_ fun _ => ?_
  · exact noErr_ite _ _ _ (noErr_emitInfo _) (noErr_nil_trace _)
  refine noErr_runBind ?_ fun _ => ?_
  · rcases cd with _ | d
    · exact noErr_nil_trace _
    · exact noErr_ite _ _ _ (noErr_emitInfo _) (noErr_nil_trace _)
  refine noErr_runBind (noErr_nil_trace _) fun filesToUpload => ?_
  refine noErr_runBind (noErr_emitInfo _) fun _ => ?_
  refine noErr_runBind (noErr_runCatch ?_ fun e => ?_) fun _ => ?_
  · refine noErr_runBind (noErr_nil_trace _) fun sha => ?_
    refine noErr_runBind (noErr_nil_trace _) fun treeSha => ?_
    exact noErr_nil_trace _
  · refine noErr_runBind (noErr_emitInfo _) fun _ => ?_
    exact noErr_nil_trace _
  refine noErr_runBind (noErr_emitInfo _) fun _ => ?_
  refine noErr_runBind (uploadBlobs_noErr _ _) fun _ => ?_
  refine noErr_runBind (noErr_emitInfo _) fun _ => ?_
  refine noErr_runBind (noErr_nil_trace _) fun _ => ?_
  refine noErr_runBind (noErr_emitInfo _) fun _ => ?_
  refine noErr_runBind (noErr_nil_trace _) fun _ => ?_
  refine noErr_runBind (noErr_emitInfo _) fun _ => ?_
  refine noErr_runBind (noErr_nil_trace _) fun _ => ?_
  refine noErr_runBind (noErr_emitInfo _) fun _ => ?_
  refine noErr_runBind (noErr_runCatch ?_ fun e => ?_) fun pagesUrl => ?_
  · refine noErr_runBind (noErr_nil_trace _) fun pages => ?_
    refine noErr_runBind (noErr_emitSuccess _) fun _ => ?_
    exact noErr_nil_trace _
  · refine noErr_ite _ _ _ ?_ ?_
    · refine noErr_runBind (noErr_emitInfo _) fun _ => ?_
      refine noErr_runCatch ?_ fun _ => ?_
      · refine noErr_runBind (noErr_nil_trace _) fun pages => ?_
        exact noErr_nil_trace _
      · exact noErr_nil_trace _
    · refine noErr_runBind (noErr_emitInfo _) fun _ => ?_
      exact noErr_nil_trace _
  refine noErr_runBind (noErr_emitEv _ _ _ _ (fun h => EventType.noConfusion h))
    fun _ => ?_
  exact noErr_nil_trace _

/-- The body of `deployZipToFirebase`'s outer try emits no error event. -/
theorem runFirebasePhases_noErr (api : FirebaseApi) (siteId : Str)
    (a : ZipAnalysis) :
    NoErrEvents (runFirebasePhases api siteId a).1 := by
  unfold runFirebasePhases
  refine noErr_runBind (noErr_emitInfo _) fun _ => ?_
  refine noErr_runBind (noErr_nil_trace _) fun vres => ?_
  refine noErr_runBind ?_ fun _ => ?_
  · exact noErr_ite _ _ _ (noErr_nil_trace _) (noErr_nil_trace _)
  refine noErr_runBind (noErr_emitSuccess _) fun _ => ?_
  refine noErr_runBind (noErr_emitInfo _) fun _ => ?_
  refine noErr_runBind (noErr_nil_trace _) fun eachHash => ?_
  refine noErr_runBind (noErr_emitInfo _) fun _ => ?_
  refine noErr_runBind (noErr_nil_trace _) fun pres => ?_
  refine noErr_runBind ?_ fun _ => ?_
  · exact noErr_ite _ _ _ (noErr_nil_trace _) (noErr_nil_trace _)
  refine noErr_runBind ?_ fun _ => ?_
  · refine noErr_ite _ _ _ ?_ (noErr_emitInfo _)
    refine noErr_runBind (noErr_emitInfo _) fun _ => ?_
    exact fbUploadLoopFuel_noErr _ _ _ _ _
  refine noErr_runBind (noErr_emitInfo _) fun _ => ?_
  refine noErr_runBind (noErr_nil_trace _) fun fres => ?_
  refine noErr_runBind ?_ fun _ => ?_
  · exact noErr_ite _ _ _ (noErr_nil_trace _) (noErr_nil_trace _)
  refine noErr_runBind (noErr_emitInfo _) fun _ => ?_
  refine noErr_runBind (noErr_nil_trace _) fun rres => ?_
  refine noErr_runBind ?_ fun _ => ?_
  · exact noErr_ite _ _ _ (noErr_nil_trace _) (noErr_nil_trace _)
  refine noErr_runBind (noErr_emitEv _ _ _ _ (fun h => EventType.noConfusion h))
    fun _ => ?_
  exact noErr_nil_trace _

/-- A trace without error events counts zero error events. -/
theorem countErrors_eq_zero {l : List DeployStatus} (h : NoErrEvents l) :
    countErrors l = 0 := by
  unfold countErrors
  rw [List.countP_eq_zero]
  intro ev hm
  simp only [beq_iff_eq]
  exact h ev hm

/-- A successful run passes through the outer catch unchanged. -/
theorem finishDeploy_eq_ok {ε : Type} (mkErr : ε → DeployStatus)
    (r : Run ε Str) (u : Str) (h : r.2 = Except.ok u) :
    finishDeploy mkErr r = (r.1, Except.ok u) := by
  unfold finishDeploy
  rw [h]

/-- A failed run gets the terminal error event appended and rethrows. -/
theorem finishDeploy_eq_err {ε : Type} (mkErr : ε → DeployStatus)
    (r : Run ε Str) (e : ε) (h : r.2 = Except.error e) :
    finishDeploy mkErr r = (r.1 ++ [mkErr e], Except.error e) := by
  unfold finishDeploy
  rw [h]

/-- The error-event discipline of a deployment run: a successful run has
no error event in its trace, and a failed run has exactly one, which is
its terminal event and has kind `error`. -/
def ErrorEventDiscipline {ε : Type} (mkErr : ε → DeployStatus)
    (r : Run ε Str) : Prop :=
  (∀ u, r.2 = Except.ok u → countErrors r.1 = 0) ∧
  (∀ e, r.2 = Except.error e →
    countErrors r.1 = 1 ∧ r.1.getLast? = some (mkErr e) ∧
    (mkErr e).type = EventType.error)

/-- The outer catch establishes the error-event discipline over any body
whose own trace has no error events, for any error-kinded terminal
event. -/
theorem finishDeploy_discipline {ε : Type} (mkErr : ε → DeployStatus)
    (r : Run ε Str) (hr : NoErrEvents r.1)
    (hmk : ∀ e, (mkErr e).type = EventType.error) :
    ErrorEventDiscipline mkErr (finishDeploy mkErr r) := by
  constructor
  · intro u hu
    cases h2 : r.2 with
    | ok v =>
      rw [finishDeploy_eq_ok mkErr r v h2]
      exact countErrors_eq_zero hr
    | error e =>
      rw [finishDeploy_eq_err mkErr r e h2] at hu
      exact absurd hu (by simp)
  · intro e he
    cases h2 : r.2 with
    | ok v =>
      rw [finishDeploy_eq_ok mkErr r v h2] at he
      exact absurd he (by simp)
    | error e2 =>
      rw [finishDeploy_eq_err mkErr r e2 h2] at he
      have he2 : e2 = e := by simpa using he
      subst he2
      rw [finishDeploy_eq_err mkErr r e2 h2]
      refine ⟨?_, ?_, hmk e2⟩
      · show countErrors (r.1 ++ [mkErr e2]) = 1
        unfold countErrors
        rw [List.countP_append]
        have h0 : List.countP (fun ev => ev.type == EventType.error) r.1 = 0 :=
          countErrors_eq_zero hr
        rw [h0]
        simp [List.countP_cons, hmk e2]
      · show (r.1 ++ [mkErr e2]).getLast? = some (mkErr e2)
        exact List.getLast?_concat r.1

/-- Claim C4: on either backend, every deployment run delivers exactly
one `error` event exactly when it ultimately fails (the deploy function
rethrows), and the `error` event, when present, is the terminal event of
the attempt, emitted by the outer catch before the exception is
re-raised; a successful run delivers no `error` event at all. -/
theorem deploy_error_events_claim (api : GitHubApi) (repoName : Str)
    (a : ZipAnalysis) (cd : Option Str) (patches : List AutoFixPatch)
    (fapi : FirebaseApi) (siteId : Str) :
    ErrorEventDiscipline ghErrorEvent
      (deployZipToGitHub api repoName a cd patches) ∧
    ErrorEventDiscipline fbErrorEvent (deployZipToFirebase fapi siteId a) := by
  constructor
  · exact finishDeploy_discipline ghErrorEvent
      (runGitHubPhases api repoName a cd patches)
      (runGitHubPhases_noErr api repoName a cd patches) (fun e => rfl)
  · exact finishDeploy_discipline fbErrorEvent
      (runFirebasePhases fapi siteId a)
      (runFirebasePhases_noErr fapi siteId a) (fun e => rfl)

/-- A one-file analysis used to exercise the deployment oracles at
concrete inputs. -/
def demoAnalysis : ZipAnalysis :=
  ⟨1, 5, ProjectType.staticWebsite,
    [⟨("index.html").data, 5, ("hello").data⟩], [], []⟩

/-- A GitHub API oracle whose authentication call is rejected with a
401. -/
def ghAuthFailApi : GitHubApi :=
  ⟨Except.error ⟨some 401, ("Bad credentials").data⟩,
    Except.ok ⟨("main").data⟩, Except.ok ⟨("main").data⟩,
    Except.ok (("refsha").data), Except.ok (("treesha").data),
    fun _ _ => Except.ok (("blobsha").data), Except.ok (("tsha").data),
    Except.ok (("csha").data), Except.ok (), Except.ok ⟨none⟩,
    Except.ok ⟨none⟩⟩

/-- A Firebase API oracle whose version-create response is not ok. -/
def fbVersionFailApi : FirebaseApi :=
  ⟨Except.ok ⟨false, some (("quota exceeded").data), ("Forbidden").data,
      ("v/1").data⟩,
    Except.ok ⟨true, none, ("OK").data, []⟩,
    fun _ => Except.ok ⟨true, none, ("OK").data, ("x").data⟩,
    Except.ok ⟨true, none, ("OK").data, ("x").data⟩,
    Except.ok ⟨true, none, ("OK").data, ("x").data⟩,
    fun _ => ("h0").data⟩

/-- Witness for C4 at concrete inputs: with authentication rejected the
GitHub deployment fails with exactly one `error` event, placed last in
the trace; a Firebase run whose version-create response is not ok
likewise carries exactly one `error` event. -/
theorem deploy_error_events_claim_witness :
    countErrors (deployZipToGitHub ghAuthFailApi (("site").data)
        demoAnalysis none []).1 = 1 ∧
    (deployZipToGitHub ghAuthFailApi (("site").data)
        demoAnalysis none []).1.getLast? =
      some (ghErrorEvent ⟨some 401, ("Bad credentials").data⟩) ∧
    countErrors (deployZipToFirebase fbVersionFailApi (("site").data)
        demoAnalysis).1 = 1 :=
  have hg := deploy_error_events_claim ghAuthFailApi (("site").data)
    demoAnalysis none [] fbVersionFailApi (("site").data)
  ⟨(hg.1.2 ⟨some 401, ("Bad credentials").data⟩ (by rfl)).1,
   (hg.1.2 ⟨some 401, ("Bad credentials").data⟩ (by rfl)).2.1,
   (hg.2.2 ((("Failed to create version: ").data) ++
     (("quota exceeded").data)) (by rfl)).1⟩

/-- Result of a pure step. -/
@[simp] theorem runPure_snd {ε α : Type} (a : α) :
    (runPure a : Run ε α).2 = Except.ok a := rfl

/-- Result of an awaited API call. -/
@[simp] theorem runOf_snd {ε α : Type} (x : Except ε α) :
    (runOf x).2 = x := rfl

/-- Result of an event emission. -/
@[simp] theorem runEmit_snd {ε : Type} (e : DeployStatus) :
    (runEmit e : Run ε Unit).2 = Except.ok () := rfl

/-- Result of a sequencing step, by cases on the first result. -/
theorem runBind_snd {ε α β : Type} (a : Run ε α) (f : α → Run ε β) :
    (runBind a f).2 = match a.2 with
      | Except.error e => Except.error e
      | Except.ok x => (f x).2 := by
  unfold runBind
  cases a.2 <;> rfl

/-- Result of an inner catch, by cases on the protected result. -/
theorem runCatch_snd {ε α : Type} (a : Run ε α) (h : ε → Run ε α) :
    (runCatch a h).2 = match a.2 with
      | Except.ok x => Except.ok x
      | Except.error e => (h e).2 := by
  unfold runCatch
  cases a.2 <;> rfl

/-- With no patches and no custom domain the prepared upload set is
exactly the manifest, materialised as bytes. -/
theorem prepareFiles_nil_none (files : List ManifestFile) :
    prepareFiles files [] none = files.map fun f =>
      (⟨f.path, encodeBytes f.content, fileMode⟩ : UploadFile) := rfl

/-- A blob upload that fails twice and succeeds on its third attempt
succeeds within its `retries = 3` budget. -/
theorem tryUpload_third_ok (call : Nat → Except GHErr Str) (e0 e1 : GHErr)
    (sha : Str) (h0 : call 0 = Except.error e0)
    (h1 : call 1 = Except.error e1) (h2 : call 2 = Except.ok sha) :
    tryUpload call 0 3 = Except.ok sha := by
  simp [tryUpload, h0, h1, h2]

/-- A blob upload that fails on all three attempts exhausts the budget
and rethrows the last attempt's error. -/
theorem tryUpload_three_failures (call : Nat → Except GHErr Str)
    (e0 e1 e2 : GHErr) (h0 : call 0 = Except.error e0)
    (h1 : call 1 = Except.error e1) (h2 : call 2 = Except.error e2) :
    tryUpload call 0 3 = Except.error e2 := by
  simp [tryUpload, h0, h1, h2]

/-- A batch whose every member upload succeeds within the retry budget
resolves with its tree entries. -/
theorem processBatch_ok (api : GitHubApi) :
    ∀ l : List (Nat × UploadFile),
    (∀ p ∈ l, ∃ s, tryUpload (api.createBlob p.1) 0 3 = Except.ok s) →
    ∃ items, processBatch api l = Except.ok items := by
  intro l
  induction l with
  | nil => exact fun _ => ⟨[], rfl⟩
  | cons pf rest ih =>
    intro h
    obtain ⟨s, hs⟩ := h pf (List.mem_cons_self pf rest)
    obtain ⟨items, hi⟩ := ih fun p hp => h p (List.mem_cons_of_mem pf hp)
    cases pf with
    | mk i f =>
      refine ⟨⟨f.path, f.mode, s⟩ :: items, ?_⟩
      simp [processBatch, hs, hi]

/-- A batch whose first member exhausts its retry budget rejects with
that member's last error. -/
theorem processBatch_err_head (api : GitHubApi) (i : Nat) (f : UploadFile)
    (rest : List (Nat × UploadFile)) (e : GHErr)
    (h : tryUpload (api.createBlob i) 0 3 = Except.error e) :
    processBatch api ((i, f) :: rest) = Except.error e := by
  simp [processBatch, h]

/-- The position carried by an entry of `l.enum` is a position of `l`. -/
theorem fst_lt_of_mem_enum {α : Type} {l : List α} {p : Nat × α}
    (h : p ∈ l.enum) : p.1 < l.length := by
  obtain ⟨i, x⟩ := p
  have := List.mem_enumFrom h
  simpa using this.2.1

/-- The upload loop resolves when every listed upload succeeds within
its retry budget. -/
theorem uploadLoopFuel_ok (api : GitHubApi) (total fuel : Nat) :
    ∀ (uploaded : Nat) (l : List (Nat × UploadFile)),
    (∀ p ∈ l, ∃ s, tryUpload (api.createBlob p.1) 0 3 = Except.ok s) →
    ∃ items, (uploadLoopFuel api total fuel uploaded l).2 = Except.ok items := by
  induction fuel with
  | zero => exact fun _ _ _ => ⟨[], rfl⟩
  | succ n ih =>
    intro uploaded l h
    cases l with
    | nil => exact ⟨[], rfl⟩
    | cons f rest =>
      obtain ⟨items, hb⟩ := processBatch_ok api (f :: rest.take 4) fun p hp => by
        rcases List.mem_cons.mp hp with h1 | h1
        · subst h1
          exact h p (List.mem_cons_self p rest)
        · exact h p (List.mem_cons_of_mem f (List.mem_of_mem_take h1))
      obtain ⟨more, hm⟩ := ih (uploaded + (f :: rest.take 4).length)
        (rest.drop 4) fun p hp =>
          h p (List.mem_cons_of_mem f (List.mem_of_mem_drop hp))
      refine ⟨items ++ more, ?_⟩
      simp only [List.length_cons, List.length_take] at hm
      simp [uploadLoopFuel, hb, runBind, runEmit, runPure, hm]

/-- The whole upload phase resolves when every file's upload succeeds
within its retry budget. -/
theorem uploadBlobs_ok (api : GitHubApi) (files : List UploadFile)
    (h : ∀ i, i < files.length →
      ∃ s, tryUpload (api.createBlob i) 0 3 = Except.ok s) :
    ∃ items, (uploadBlobs api files).2 = Except.ok items :=
  uploadLoopFuel_ok api files.length files.length 0 files.enum
    fun p hp => h p.1 (fst_lt_of_mem_enum hp)

/-- With authentication and repository setup succeeding but the first
file's blob upload exhausting its retry budget, the run's body rejects
with that error. -/
theorem runGitHubPhases_blobFail (api : GitHubApi) (repoName owner : Str)
    (a : ZipAnalysis) (repo : RepoInfo) (e : GHErr)
    (hau : api.authUser = Except.ok owner)
    (hcr : api.createRepo = Except.ok repo)
    (hne : a.files ≠ [])
    (hb : tryUpload (api.createBlob 0) 0 3 = Except.error e) :
    (runGitHubPhases api repoName a none []).2 = Except.error e := by
  obtain ⟨f0, fs, hf⟩ : ∃ f0 fs, a.files = f0 :: fs := by
    cases hx : a.files with
    | nil => exact absurd hx hne
    | cons x xs => exact ⟨x, xs, rfl⟩
  have hup : (uploadBlobs api (prepareFiles a.files [] none)).2 =
      Except.error e := by
    rw [prepareFiles_nil_none, hf]
    simp [uploadBlobs, List.enum_cons, uploadLoopFuel,
      processBatch_err_head api 0 _ _ e hb]
  unfold runGitHubPhases
  cases hgr : api.getRef <;> cases hgc : api.getCommit <;>
    simp [runBind_snd, runCatch_snd, hau, hcr, hgr, hgc, hup]

/-- Claim C5: in the Git backend's batched blob upload phase each
individual upload gets up to 3 attempts: an upload that fails twice and
succeeds on the third attempt succeeds, and when every file's upload
succeeds within the budget the phase resolves with no error event in its
trace; an upload that fails on all three attempts rethrows its last
error, and such a failure on the first file aborts the whole deployment,
which rejects with that error after a terminal `error` event. -/
theorem blob_retry_claim (api : GitHubApi) (call : Nat → Except GHErr Str)
    (e0 e1 e2 : GHErr) (sha owner repoName : Str)
    (files : List UploadFile) (a : ZipAnalysis) (repo : RepoInfo) :
    (call 0 = Except.error e0 → call 1 = Except.error e1 →
      call 2 = Except.ok sha → tryUpload call 0 3 = Except.ok sha) ∧
    (call 0 = Except.error e0 → call 1 = Except.error e1 →
      call 2 = Except.error e2 → tryUpload call 0 3 = Except.error e2) ∧
    ((∀ i, i < files.length →
        ∃ s, tryUpload (api.createBlob i) 0 3 = Except.ok s) →
      (∃ items, (uploadBlobs api files).2 = Except.ok items) ∧
        NoErrEvents (uploadBlobs api files).1) ∧
    (api.authUser = Except.ok owner → api.createRepo = Except.ok repo →
      a.files ≠ [] → tryUpload (api.createBlob 0) 0 3 = Except.error e2 →
      (deployZipToGitHub api repoName a none []).2 = Except.error e2 ∧
        (deployZipToGitHub api repoName a none []).1.getLast? =
          some (ghErrorEvent e2) ∧
        (ghErrorEvent e2).type = EventType.error) := by
  refine ⟨?_, ?_, ?_, ?_⟩
  · intro h0 h1 h2
    exact tryUpload_third_ok call e0 e1 sha h0 h1 h2
  · intro h0 h1 h2
    exact tryUpload_three_failures call e0 e1 e2 h0 h1 h2
  · intro h
    exact ⟨uploadBlobs_ok api files h, uploadBlobs_noErr api files⟩
  · intro hau hcr hne hb
    have hph : (runGitHubPhases api repoName a none []).2 = Except.error e2 :=
      runGitHubPhases_blobFail api repoName owner a repo e2 hau hcr hne hb
    have hfin : deployZipToGitHub api repoName a none [] =
        ((runGitHubPhases api repoName a none []).1 ++ [ghErrorEvent e2],
          Except.error e2) :=
      finishDeploy_eq_err ghErrorEvent (runGitHubPhases api repoName a none [])
        e2 hph
    rw [hfin]
    exact ⟨rfl, List.getLast?_concat _, rfl⟩

/-- A blob upload call that is rejected on its first two attempts and
resolves on the third. -/
def flakyCall : Nat → Except GHErr Str := fun k =>
  if k < 2 then Except.error ⟨some 500, ("boom").data⟩
  else Except.ok (("sha0").data)

/-- A GitHub API oracle that answers every call except blob creation,
which is always rejected. -/
def ghBlobFailApi : GitHubApi :=
  ⟨Except.ok (("me").data),
    Except.ok ⟨("main").data⟩, Except.ok ⟨("main").data⟩,
    Except.ok (("refsha").data), Except.ok (("treesha").data),
    fun _ _ => Except.error ⟨some 500, ("boom").data⟩,
    Except.ok (("tsha").data), Except.ok (("csha").data), Except.ok (),
    Except.ok ⟨none⟩, Except.ok ⟨none⟩⟩

/-- Witness for C5 at concrete inputs: the fail-fail-succeed call
resolves within the budget, while an always-failing blob upload makes
the concrete one-file deployment reject with the blob error right after
a terminal `error` event. -/
theorem blob_retry_claim_witness :
    tryUpload flakyCall 0 3 = Except.ok (("sha0").data) ∧
    (deployZipToGitHub ghBlobFailApi (("site").data)
        demoAnalysis none []).2 = Except.error ⟨some 500, ("boom").data⟩ ∧
    (deployZipToGitHub ghBlobFailApi (("site").data)
        demoAnalysis none []).1.getLast? =
      some (ghErrorEvent ⟨some 500, ("boom").data⟩) :=
  have hc := blob_retry_claim ghBlobFailApi flakyCall
    ⟨some 500, ("boom").data⟩ ⟨some 500, ("boom").data⟩
    ⟨some 500, ("boom").data⟩ (("sha0").data) (("me").data)
    (("site").data) [] demoAnalysis ⟨("main").data⟩
  have habort := hc.2.2.2 (by rfl) (by rfl) (by decide) (by rfl)
  ⟨hc.1 (by rfl) (by rfl) (by rfl), habort.1, habort.2.1⟩

/-- The outer catch never changes the outcome, only the trace. -/
theorem finishDeploy_snd {ε : Type} (mkErr : ε → DeployStatus)
    (r : Run ε Str) : (finishDeploy mkErr r).2 = r.2 := by
  unfold finishDeploy
  cases r.2 <;> rfl

/-- The GitHub deployment's outcome is its body's outcome. -/
theorem deployGh_snd (api : GitHubApi) (repoName : Str) (a : ZipAnalysis)
    (cd : Option Str) (patches : List AutoFixPatch) :
    (deployZipToGitHub api repoName a cd patches).2 =
      (runGitHubPhases api repoName a cd patches).2 :=
  finishDeploy_snd ghErrorEvent (runGitHubPhases api repoName a cd patches)

/-- The Firebase deployment's outcome is its body's outcome. -/
theorem deployFb_snd (fapi : FirebaseApi) (siteId : Str) (a : ZipAnalysis) :
    (deployZipToFirebase fapi siteId a).2 =
      (runFirebasePhases fapi siteId a).2 :=
  finishDeploy_snd fbErrorEvent (runFirebasePhases fapi siteId a)

set_option maxHeartbeats 3200000 in
/-- Claim C6 (amended): every non-conflict failure of a publish-protocol
step aborts the deployment — authentication, repository creation (other
than a 422 conflict), the 422-fallback repository read, tree creation,
commit creation and the ref update on GitHub, and every non-ok response
on Firebase — and a 422 repository conflict is converted to the success
path; but two GitHub read/enable steps are exceptions: a failed read of
the previous ref starts fresh and the deployment still succeeds, and a
non-409 Pages-enable failure is swallowed, the deployment succeeding
with the default Pages URL (a 409 conflict likewise continues via the
Pages read). -/
theorem failure_abort_claim (api : GitHubApi) (fapi : FirebaseApi)
    (repoName siteId owner sha tsha csha hsh s : Str) (a : ZipAnalysis)
    (cd : Option Str) (patches : List AutoFixPatch) (repo : RepoInfo)
    (e e2 : GHErr) (pinfo : PagesInfo) (vres fres rres uresp : FetchResp)
    (pres : PopulateResp) :
    (api.authUser = Except.error e →
      (deployZipToGitHub api repoName a cd patches).2 = Except.error e) ∧
    (api.authUser = Except.ok owner → api.createRepo = Except.error e →
      (e.status == some 422) = false →
      (deployZipToGitHub api repoName a cd patches).2 = Except.error e) ∧
    (api.authUser = Except.ok owner → api.createRepo = Except.error e →
      (e.status == some 422) = true → api.getRepo = Except.error e2 →
      (deployZipToGitHub api repoName a cd patches).2 = Except.error e2) ∧
    (api.authUser = Except.ok owner → api.createRepo = Except.ok repo →
      (∀ i k, api.createBlob i k = Except.ok sha) →
      api.createTree = Except.error e →
      (deployZipToGitHub api repoName a cd patches).2 = Except.error e) ∧
    (api.authUser = Except.ok owner → api.createRepo = Except.ok repo →
      (∀ i k, api.createBlob i k = Except.ok sha) →
      api.createTree = Except.ok tsha → api.createCommit = Except.error e →
      (deployZipToGitHub api repoName a cd patches).2 = Except.error e) ∧
    (api.authUser = Except.ok owner → api.createRepo = Except.ok repo →
      (∀ i k, api.createBlob i k = Except.ok sha) →
      api.createTree = Except.ok tsha → api.createCommit = Except.ok csha →
      api.updateRef = Except.error e →
      (deployZipToGitHub api repoName a cd patches).2 = Except.error e) ∧
    (api.authUser = Except.ok owner → api.createRepo = Except.ok repo →
      (∀ i k, api.createBlob i k = Except.ok sha) →
      api.createTree = Except.ok tsha → api.createCommit = Except.ok csha →
      api.updateRef = Except.ok () → api.createPagesSite = Except.error e →
      (e.status == some 409) = false →
      (deployZipToGitHub api repoName a cd patches).2 =
        Except.ok (defaultPagesUrl owner repoName)) ∧
    (api.authUser = Except.ok owner → api.createRepo = Except.ok repo →
      (∀ i k, api.createBlob i k = Except.ok sha) →
      api.createTree = Except.ok tsha → api.createCommit = Except.ok csha →
      api.updateRef = Except.ok () → api.createPagesSite = Except.error e →
      (e.status == some 409) = true → api.getPages = Except.ok pinfo →
      (deployZipToGitHub api repoName a cd patches).2 =
        Except.ok (pagesUrlOr owner repoName pinfo.htmlUrl)) ∧
    (api.authUser = Except.ok owner → api.createRepo = Except.ok repo →
      api.getRef = Except.error e →
      (∀ i k, api.createBlob i k = Except.ok sha) →
      api.createTree = Except.ok tsha → api.createCommit = Except.ok csha →
      api.updateRef = Except.ok () →
      api.createPagesSite = Except.ok pinfo →
      (deployZipToGitHub api repoName a cd patches).2 =
        Except.ok (pagesUrlOr owner repoName pinfo.htmlUrl)) ∧
    (fapi.createVersion = Except.error s →
      (deployZipToFirebase fapi siteId a).2 = Except.error s) ∧
    (fapi.createVersion = Except.ok vres → vres.ok = false →
      (deployZipToFirebase fapi siteId a).2 = Except.error
        ((("Failed to create version: ").data) ++
          fetchErrText vres.errMsg vres.statusText)) ∧
    (fapi.createVersion = Except.ok vres → vres.ok = true →
      fapi.populateFiles = Except.ok pres → pres.ok = false →
      (deployZipToFirebase fapi siteId a).2 = Except.error
        ((("Failed to populate files: ").data) ++
          fetchErrText pres.errMsg pres.statusText)) ∧
    (fapi.createVersion = Except.ok vres → vres.ok = true →
      fapi.populateFiles = Except.ok pres → pres.ok = true →
      pres.uploadRequiredHashes = [hsh] →
      fapi.uploadFile hsh = Except.ok uresp → uresp.ok = false →
      (deployZipToFirebase fapi siteId a).2 = Except.error
        ((("Failed to upload file with hash ").data) ++ hsh)) ∧
    (fapi.createVersion = Except.ok vres → vres.ok = true →
      fapi.populateFiles = Except.ok pres → pres.ok = true →
      pres.uploadRequiredHashes = [] →
      fapi.finalizeVersion = Except.ok fres → fres.ok = false →
      (deployZipToFirebase fapi siteId a).2 = Except.error
        ((("Failed to finalize version: ").data) ++
          fetchErrText fres.errMsg fres.statusText)) ∧
    (fapi.createVersion = Except.ok vres → vres.ok = true →
      fapi.populateFiles = Except.ok pres → pres.ok = true →
      pres.uploadRequiredHashes = [] →
      fapi.finalizeVersion = Except.ok fres → fres.ok = true →
      fapi.release = Except.ok rres → rres.ok = false →
      (deployZipToFirebase fapi siteId a).2 = Except.error
        ((("Failed to release: ").data) ++
          fetchErrText rres.errMsg rres.statusText)) := by
  refine ⟨?_, ?_, ?_, ?_, ?_, ?_, ?_, ?_, ?_, ?_, ?_, ?_, ?_, ?_, ?_⟩
  · intro hau
    rw [deployGh_snd]
    unfold runGitHubPhases
    simp [runBind_snd, runCatch_snd, hau]
  · intro hau hcr hst
    simp only [beq_eq_false_iff_ne] at hst
    rw [deployGh_snd]
    unfold runGitHubPhases
    simp [runBind_snd, runCatch_snd, hau, hcr, hst]
  · intro hau hcr hst hgrepo
    simp only [beq_iff_eq] at hst
    rw [deployGh_snd]
    unfold runGitHubPhases
    simp [runBind_snd, runCatch_snd, hau, hcr, hst, hgrepo]
  · intro hau hcr hbl htree
    obtain ⟨items, hup⟩ := uploadBlobs_ok api (prepareFiles a.files patches cd)
      fun i _ => ⟨sha, by simp [tryUpload, hbl]⟩
    rw [deployGh_snd]
    unfold runGitHubPhases
    cases hgr : api.getRef <;> cases hgc : api.getCommit <;>
        rcases cd with _ | d <;>
      simp [runBind_snd, runCatch_snd, hau, hcr, hgr, hgc, hup, htree,
        apply_ite, ite_self]
  · intro hau hcr hbl htree hcmt
    obtain ⟨items, hup⟩ := uploadBlobs_ok api (prepareFiles a.files patches cd)
      fun i _ => ⟨sha, by simp [tryUpload, hbl]⟩
    rw [deployGh_snd]
    unfold runGitHubPhases
    cases hgr : api.getRef <;> cases hgc : api.getCommit <;>
        rcases cd with _ | d <;>
      simp [runBind_snd, runCatch_snd, hau, hcr, hgr, hgc, hup, htree, hcmt,
        apply_ite, ite_self]
  · intro hau hcr hbl htree hcmt href
    obtain ⟨items, hup⟩ := uploadBlobs_ok api (prepareFiles a.files patches cd)
      fun i _ => ⟨sha, by simp [tryUpload, hbl]⟩
    rw [deployGh_snd]
    unfold runGitHubPhases
    cases hgr : api.getRef <;> cases hgc : api.getCommit <;>
        rcases cd with _ | d <;>
      simp [runBind_snd, runCatch_snd, hau, hcr, hgr, hgc, hup, htree, hcmt,
        href, apply_ite, ite_self]
  · intro hau hcr hbl htree hcmt href hpg hst
    simp only [beq_eq_false_iff_ne] at hst
    obtain ⟨items, hup⟩ := uploadBlobs_ok api (prepareFiles a.files patches cd)
      fun i _ => ⟨sha, by simp [tryUpload, hbl]⟩
    rw [deployGh_snd]
    unfold runGitHubPhases
    cases hgr : api.getRef <;> cases hgc : api.getCommit <;>
        rcases cd with _ | d <;>
      simp [runBind_snd, runCatch_snd, hau, hcr, hgr, hgc, hup, htree, hcmt,
        href, hpg, hst, apply_ite, ite_self]
  · intro hau hcr hbl htree hcmt href hpg hst hgp
    simp only [beq_iff_eq] at hst
    obtain ⟨items, hup⟩ := uploadBlobs_ok api (prepareFiles a.files patches cd)
      fun i _ => ⟨sha, by simp [tryUpload, hbl]⟩
    rw [deployGh_snd]
    unfold runGitHubPhases
    cases hgr : api.getRef <;> cases hgc : api.getCommit <;>
        rcases cd with _ | d <;>
      simp [runBind_snd, runCatch_snd, hau, hcr, hgr, hgc, hup, htree, hcmt,
        href, hpg, hst, hgp, apply_ite, ite_self]
  · intro hau hcr hgr hbl htree hcmt href hpg
    obtain ⟨items, hup⟩ := uploadBlobs_ok api (prepareFiles a.files patches cd)
      fun i _ => ⟨sha, by simp [tryUpload, hbl]⟩
    rw [deployGh_snd]
    unfold runGitHubPhases
    rcases cd with _ | d <;>
      simp [runBind_snd, runCatch_snd, hau, hcr, hgr, hup, htree, hcmt,
        href, hpg, apply_ite, ite_self]
  · intro hv
    rw [deployFb_snd]
    unfold runFirebasePhases
    simp [runBind_snd, hv]
  · intro hv hok
    rw [deployFb_snd]
    unfold runFirebasePhases
    simp [runBind_snd, hv, hok]
  · intro hv hok hp hpok
    rw [deployFb_snd]
    unfold runFirebasePhases
    simp [runBind_snd, hv, hok, hp, hpok]
  · intro hv hok hp hpok hhs huf hufok
    rw [deployFb_snd]
    unfold runFirebasePhases
    simp [runBind_snd, hv, hok, hp, hpok, hhs, fbUploadLoopFuel,
      fbProcessBatch, huf, hufok]
  · intro hv hok hp hpok hhs hf hfok
    rw [deployFb_snd]
    unfold runFirebasePhases
    simp [runBind_snd, hv, hok, hp, hpok, hhs, hf, hfok]
  · intro hv hok hp hpok hhs hf hfok hr hrok
    rw [deployFb_snd]
    unfold runFirebasePhases
    simp [runBind_snd, hv, hok, hp, hpok, hhs, hf, hfok, hr, hrok]

/-- A GitHub API oracle that answers every call except enabling Pages,
which is rejected with a plain 500 — not a conflict. -/
def ghPagesFailApi : GitHubApi :=
  ⟨Except.ok (("me").data),
    Except.ok ⟨("main").data⟩, Except.ok ⟨("main").data⟩,
    Except.ok (("refsha").data), Except.ok (("treesha").data),
    fun _ _ => Except.ok (("blobsha").data),
    Except.ok (("tsha").data), Except.ok (("csha").data), Except.ok (),
    Except.error ⟨some 500, ("server error").data⟩, Except.ok ⟨none⟩⟩

/-- Counterexample to the unamended C6: a non-conflict (500) failure of
the Pages-enable step does not abort the deployment — the run resolves
with the default Pages URL and its trace has no `error` event. -/
theorem failure_abort_counterexample :
    (deployZipToGitHub ghPagesFailApi (("site").data)
        demoAnalysis none []).2 =
      Except.ok (defaultPagesUrl (("me").data) (("site").data)) ∧
    countErrors (deployZipToGitHub ghPagesFailApi (("site").data)
        demoAnalysis none []).1 = 0 :=
  ⟨rfl, rfl⟩

/-- A GitHub API oracle whose ref update is rejected with a 403. -/
def ghRefFailApi : GitHubApi :=
  ⟨Except.ok (("me").data),
    Except.ok ⟨("main").data⟩, Except.ok ⟨("main").data⟩,
    Except.ok (("refsha").data), Except.ok (("treesha").data),
    fun _ _ => Except.ok (("blobsha").data),
    Except.ok (("tsha").data), Except.ok (("csha").data),
    Except.error ⟨some 403, ("protected").data⟩,
    Except.ok ⟨none⟩, Except.ok ⟨none⟩⟩

/-- Witness for C6 at concrete inputs: a 403 on the ref update aborts
the GitHub deployment with that error, and a not-ok version-create
response aborts the Firebase deployment with its formatted message. -/
theorem failure_abort_claim_witness :
    (deployZipToGitHub ghRefFailApi (("site").data)
        demoAnalysis none []).2 =
      Except.error ⟨some 403, ("protected").data⟩ ∧
    (deployZipToFirebase fbVersionFailApi (("site").data) demoAnalysis).2 =
      Except.error ((("Failed to create version: ").data) ++
        (("quota exceeded").data)) :=
  have hc := failure_abort_claim ghRefFailApi fbVersionFailApi
    (("site").data) (("site").data) (("me").data) (("blobsha").data)
    (("tsha").data) (("csha").data) (("h0").data) [] demoAnalysis none []
    ⟨("main").data⟩ ⟨some 403, ("protected").data⟩
    ⟨some 403, ("protected").data⟩ ⟨none⟩
    ⟨false, some (("quota exceeded").data), ("Forbidden").data, ("v/1").data⟩
    ⟨true, none, ("OK").data, ("x").data⟩
    ⟨true, none, ("OK").data, ("x").data⟩
    ⟨true, none, ("OK").data, ("x").data⟩
    ⟨true, none, ("OK").data, []⟩
  ⟨hc.2.2.2.2.2.1 rfl rfl (fun i k => rfl) rfl rfl rfl,
   hc.2.2.2.2.2.2.2.2.2.2.1 rfl rfl⟩
